import Mathlib

/-!
The iterative two-dimensional stencil of `stencil2d.c`.

A shallow embedding of `src/stencil2d.c`: the two drivers `stencil2d_seq` and
`stencil2d_omp` in the default build (Cross shape, without `SQUARE_STENCIL`), the
cell update of the `SQUARE_STENCIL` build, `check_accdiff`, and the argument
handling and parity adjustment of `main`.

Modelling conventions.

* `REAL` (C `float`) is modelled by exact rationals.
* C integers (`long n, m`, `int radius, num_its, ix, iy, ir`) are modelled by
  mathematical integers; the parameters are naturals since every property below
  is about non-negative sizes.  Signed overflow is undefined in C, so the model
  describes the executions in which no integer expression overflows.
* A buffer is a list of cells.  Every array access of the C code is a checked
  `readCell` or `writeCell` at an integer index; an access outside the buffer makes the
  whole computation `none`.
* The two blocks the driver works on (the one handed in by the caller and the
  one it allocates) live in a `Mem`; the C pointer variables `u` and `uold` are
  values of type `Block` that are swapped after every sweep.
-/

namespace Stencil2d

/-- `#define REAL float`, taken in exact arithmetic. -/
abbrev REAL := ℚ

/-- Names of the two memory blocks: the block the caller passes as `u`
(`u_save`) and the block obtained from `malloc` (`uold_save`). -/
inductive Block where
  | caller
  | scratch
  deriving DecidableEq, Repr

/-- Contents of the two blocks. -/
structure Mem where
  caller : List REAL
  scratch : List REAL
  deriving DecidableEq, Repr

/-- Content of one block. -/
def Mem.block (μ : Mem) : Block → List REAL
  | Block.caller => μ.caller
  | Block.scratch => μ.scratch

/-- Replace the content of one block. -/
def Mem.setBlock (μ : Mem) (b : Block) (l : List REAL) : Mem :=
  match b with
  | Block.caller => { μ with caller := l }
  | Block.scratch => { μ with scratch := l }

/-- Checked read `a[i]`. -/
def readCell (a : List REAL) (i : Int) : Option REAL :=
  if 0 ≤ i then a[i.toNat]? else none

/-- Checked write `a[i] = v`. -/
def writeCell (a : List REAL) (i : Int) (v : REAL) : Option (List REAL) :=
  if 0 ≤ i ∧ i.toNat < a.length then some (a.set i.toNat v) else none

/-- Checked read through a block pointer. -/
def Mem.load (μ : Mem) (b : Block) (i : Int) : Option REAL :=
  readCell (μ.block b) i

/-- Checked write through a block pointer. -/
def Mem.store (μ : Mem) (b : Block) (i : Int) (v : REAL) : Option Mem :=
  (writeCell (μ.block b) i v).map (μ.setBlock b)

/-- The `malloc`ed block: `cnt` cells of unspecified content (zeros here; the
driver overwrites all of them with `memcpy` before any read). -/
def malloc (cnt : Nat) : List REAL := List.replicate cnt 0

/-- Checked `memcpy(dst, src, cnt * sizeof(REAL))`. -/
def memcpy (dst src : List REAL) (cnt : Nat) : Option (List REAL) :=
  if cnt ≤ src.length ∧ cnt ≤ dst.length then some (src.take cnt ++ dst.drop cnt) else none

/-- Body of the `ir` loop (lines 237-240 and 187-190): the four products of
ring `ir` are added to `result` in the order right, left, up, bottom.
`c` is the index of the kernel centre in `coeff`, `p` the index of the current
cell in block `uold`. -/
def ring_step (μ : Mem) (uold : Block) (coeff : List REAL) (c p coeff_dimX u_dimY : Int)
    (result : REAL) (ir : Nat) : Option REAL := do
  let result := result + (← readCell coeff (c + ir)) * (← μ.load uold (p + ir))
  let result := result + (← readCell coeff (c + -ir)) * (← μ.load uold (p + -ir))
  let result := result + (← readCell coeff (c + -ir * coeff_dimX)) * (← μ.load uold (p + -ir * u_dimY))
  let result := result + (← readCell coeff (c + ir * coeff_dimX)) * (← μ.load uold (p + ir * u_dimY))
  pure result

/-- Lines 234-247 (and 184-197): `result = temp_uold[0] * coeff[0]` followed by
`for (ir = 1; ir <= radius; ir++)`. -/
def accumulate (μ : Mem) (uold : Block) (coeff : List REAL) (c p coeff_dimX u_dimY : Int)
    (radius : Nat) : Option REAL := do
  let result := (← μ.load uold p) * (← readCell coeff c)
  (List.range' 1 radius).foldlM (ring_step μ uold coeff c p coeff_dimX u_dimY) result

/-- State of the `iy` loop of `stencil2d_omp`: memory and the two running
pointers `temp_u`, `temp_uold` (as indices into blocks `u` and `uold`). -/
structure RowState where
  mem : Mem
  temp_u : Int
  temp_uold : Int

/-- Body of the `iy` loop of `stencil2d_omp` (lines 234-250). -/
def omp_cell (u uold : Block) (coeff : List REAL) (c coeff_dimX u_dimY : Int) (radius : Nat)
    (count : Nat) (s : RowState) (_iy : Nat) : Option RowState := do
  let result ← accumulate s.mem uold coeff c s.temp_uold coeff_dimX u_dimY radius
  let mem ← s.mem.store u s.temp_u (result / count)
  pure { mem := mem, temp_u := s.temp_u + 1, temp_uold := s.temp_uold + 1 }

/-- Body of the `ix` loop of `stencil2d_omp` (lines 231-251). -/
def omp_row (m : Nat) (u uold : Block) (coeff : List REAL) (c coeff_dimX u_dimY : Int)
    (radius : Nat) (count : Nat) (μ : Mem) (ix : Nat) : Option Mem := do
  let temp_u : Int := (ix + radius) * u_dimY + radius
  let temp_uold : Int := (ix + radius) * u_dimY + radius
  let s ← (List.range m).foldlM (omp_cell u uold coeff c coeff_dimX u_dimY radius count)
    { mem := μ, temp_u := temp_u, temp_uold := temp_uold }
  pure s.mem

/-- The work-shared loop `#pragma omp for  for (ix = 0; ix < n; ix++)` of lines
229-252, with the rows taken in the order `rows`. -/
def omp_for (rows : List Nat) (m : Nat) (u uold : Block) (coeff : List REAL)
    (c coeff_dimX u_dimY : Int) (radius : Nat) (count : Nat) (μ : Mem) : Option Mem :=
  rows.foldlM (omp_row m u uold coeff c coeff_dimX u_dimY radius count) μ

/-- State of the `it` loop: memory and the pointer variables `u`, `uold`. -/
structure ItState where
  mem : Mem
  u : Block
  uold : Block

/-- One iteration of the `it` loop of `stencil2d_omp` (lines 229-255): the sweep
over the rows `0 .. n-1` in ascending order, then the pointer swap. -/
def omp_it (n m : Nat) (coeff : List REAL) (c coeff_dimX u_dimY : Int) (radius : Nat)
    (count : Nat) (s : ItState) (_it : Nat) : Option ItState := do
  let mem ← omp_for (List.range n) m s.u s.uold coeff c coeff_dimX u_dimY radius count s.mem
  let tmp := s.uold
  pure { mem := mem, uold := s.u, u := tmp }

/-- The function `stencil2d_omp` (lines 210-261), Cross shape.  The result is the content of
the caller's block on return (the allocated block is freed). -/
def stencil2d_omp (n m : Nat) (u : List REAL) (radius : Nat) (coeff : List REAL)
    (num_its : Nat) : Option (List REAL) := do
  let u_dimX : Nat := n + 2 * radius
  let u_dimY : Nat := m + 2 * radius
  let coeff_dimX : Nat := 2 * radius + 1
  let uold ← memcpy (malloc (u_dimX * u_dimY)) u (u_dimX * u_dimY)
  let c : Int := (2 * radius + 1) * radius + radius
  let count : Nat := 4 * radius + 1
  let s ← (List.range num_its).foldlM (omp_it n m coeff c coeff_dimX u_dimY radius count)
    { mem := { caller := u, scratch := uold }, u := Block.caller, uold := Block.scratch }
  pure s.mem.caller

/-- Body of the `iy` loop of `stencil2d_seq` (lines 181-198). -/
def seq_cell (ix : Nat) (u uold : Block) (coeff : List REAL) (c coeff_dimX u_dimY : Int)
    (radius : Nat) (count : Nat) (μ : Mem) (iy : Nat) : Option Mem := do
  let offset : Int := (ix + radius) * u_dimY + radius + iy
  let result ← accumulate μ uold coeff c offset coeff_dimX u_dimY radius
  μ.store u offset (result / count)

/-- Body of the `ix` loop of `stencil2d_seq` (lines 180-199). -/
def seq_row (m : Nat) (u uold : Block) (coeff : List REAL) (c coeff_dimX u_dimY : Int)
    (radius : Nat) (count : Nat) (μ : Mem) (ix : Nat) : Option Mem :=
  (List.range m).foldlM (seq_cell ix u uold coeff c coeff_dimX u_dimY radius count) μ

/-- One iteration of the `it` loop of `stencil2d_seq` (lines 177-203). -/
def seq_it (n m : Nat) (coeff : List REAL) (c coeff_dimX u_dimY : Int) (radius : Nat)
    (count : Nat) (s : ItState) (_it : Nat) : Option ItState := do
  let mem ← (List.range n).foldlM
    (seq_row m s.u s.uold coeff c coeff_dimX u_dimY radius count) s.mem
  let tmp := s.uold
  pure { mem := mem, uold := s.u, u := tmp }

/-- The function `stencil2d_seq` (lines 161-208), Cross shape. -/
def stencil2d_seq (n m : Nat) (u : List REAL) (radius : Nat) (coeff : List REAL)
    (num_its : Nat) : Option (List REAL) := do
  let u_dimX : Nat := n + 2 * radius
  let u_dimY : Nat := m + 2 * radius
  let coeff_dimX : Nat := 2 * radius + 1
  let uold ← memcpy (malloc (u_dimX * u_dimY)) u (u_dimX * u_dimY)
  let c : Int := coeff_dimX * radius + radius
  let count : Nat := 4 * radius + 1
  let s ← (List.range num_its).foldlM (seq_it n m coeff c coeff_dimX u_dimY radius count)
    { mem := { caller := u, scratch := uold }, u := Block.caller, uold := Block.scratch }
  pure s.mem.caller

/-- Line 108 of `main`: `if (num_its%2==0) num_its++;`. -/
def main_adjust (num_its : Nat) : Nat :=
  if num_its % 2 = 0 then num_its + 1 else num_its

/-- Total read used to state values: the cell `a[i]`, and `0` outside the buffer. -/
def cell (a : List REAL) (i : Int) : REAL := (readCell a i).getD 0

/-- The four products of ring `d` of the Cross neighbourhood, as the specification lists
them: `c[+d]*p[+d] + c[-d]*p[-d] + c[+d*K]*p[+d*M] + c[-d*K]*p[-d*M]`. -/
def cross_ring (coeff src : List REAL) (c p K M : Int) (d : Nat) : REAL :=
  cell coeff (c + d) * cell src (p + d) + cell coeff (c - d) * cell src (p - d)
    + cell coeff (c + d * K) * cell src (p + d * M)
    + cell coeff (c - d * K) * cell src (p - d * M)

/-- The reference Cross sum of the specification:
`c[0]*p[0] + sum over d in [1, r] of (ring d)`. -/
def cross_sum (coeff src : List REAL) (c p K M : Int) (r : Nat) : REAL :=
  cell coeff c * cell src p + ∑ d in Finset.Icc 1 r, cross_ring coeff src c p K M d

/-- An index lies inside a buffer. -/
def InBounds (a : List REAL) (i : Int) : Prop := 0 ≤ i ∧ i < a.length

/-- The centre `p` and the four arms of length `r` (row stride `S`) lie inside `a`. -/
def CrossInBounds (a : List REAL) (p S : Int) (r : Nat) : Prop :=
  InBounds a p ∧ ∀ d : Nat, 1 ≤ d → d ≤ r →
    InBounds a (p + d) ∧ InBounds a (p - d) ∧ InBounds a (p + d * S) ∧ InBounds a (p - d * S)

/-- Effect of a piece of a sweep on memory: block `uold` is untouched, block `u`
keeps its length, the cells of `u` in the write set `W` now hold `F k`, and all other
cells of `u` are unchanged. -/
def Writes (F : Nat → REAL) (W : Nat → Prop) (u uold : Block) (μ μ' : Mem) : Prop :=
  μ'.block uold = μ.block uold ∧ (μ'.block u).length = (μ.block u).length ∧
  (∀ k, W k → (μ'.block u)[k]? = some (F k)) ∧
  (∀ k, ¬ W k → (μ'.block u)[k]? = (μ.block u)[k]?)

/-- Flat index of the interior cell `(ix, iy)` in a padded buffer: the `offset` of
line 181, `(ix+radius)*u_dimY+radius+iy`. -/
def cell_index (m r ix iy : Nat) : Nat := (ix + r) * (m + 2 * r) + r + iy

/-- The value one sweep stores into the cell with flat index `k` (lines 234-248): the
Cross sum around `k` in the source buffer, divided by `count = 4*radius+1`. -/
def cell_value (coeff src : List REAL) (m r : Nat) (k : Nat) : REAL :=
  cross_sum coeff src (((2 * r + 1 : Nat) : Int) * r + r) k ((2 * r + 1 : Nat) : Int)
    ((m + 2 * r : Nat) : Int) r / ((4 * r + 1 : Nat) : REAL)

/-- Flat index `k` of a padded buffer denotes an interior cell: its row `k / M` lies in
`[r, r+n)` and its column `k % M` in `[r, r+m)`, where `M = m + 2r`. -/
def Interior (n m r k : Nat) : Prop :=
  r ≤ k / (m + 2 * r) ∧ k / (m + 2 * r) < r + n ∧ r ≤ k % (m + 2 * r) ∧ k % (m + 2 * r) < r + m

instance (n m r k : Nat) : Decidable (Interior n m r k) := by
  unfold Interior; infer_instance

/-- One sweep as a function on buffers (the Sweep of the specification): interior cells
of the destination receive `cell_value` computed from the source, all other cells of the
destination are kept. -/
def sweep_into (n m r : Nat) (coeff src dst : List REAL) : List REAL :=
  (List.range dst.length).map fun k =>
    if Interior n m r k then cell_value coeff src m r k else dst.getD k 0

/-- The whole-grid sweep function: interior recomputed from the grid itself, halo kept. -/
def sweep (n m r : Nat) (coeff X : List REAL) : List REAL :=
  sweep_into n m r coeff X X

/-- Two buffers have the same length and agree on every non-interior (halo) cell. -/
def SameHalo (n m r : Nat) (X Y : List REAL) : Prop :=
  X.length = Y.length ∧ ∀ k, ¬ Interior n m r k → X[k]? = Y[k]?

/-- Number of sweeps whose output is in the caller's block after `t` iterations of the
`it` loop: the largest odd number `≤ t` (and `0` for `t = 0`). -/
def caller_sweeps (t : Nat) : Nat := if t % 2 = 1 then t else t - 1

/-- Number of sweeps whose output is in the allocated block after `t` iterations: the
largest even number `≤ t`. -/
def scratch_sweeps (t : Nat) : Nat := if t % 2 = 0 then t else t - 1

/-- State of the `it` loop after `t` iterations started on the grid `U0`. -/
def it_state (n m r : Nat) (coeff U0 : List REAL) (t : Nat) : ItState :=
  { mem := { caller := (sweep n m r coeff)^[caller_sweeps t] U0,
             scratch := (sweep n m r coeff)^[scratch_sweeps t] U0 },
    u := if t % 2 = 0 then Block.caller else Block.scratch,
    uold := if t % 2 = 0 then Block.scratch else Block.caller }

/-- The four statements that the `SQUARE_STENCIL` build adds to the body of the `ir` loop
(lines 192-195; lines 242-245 are the same statements without their semicolons): the
products of the four corners of ring `ir`, in the order left upper, right upper, left
bottom, right bottom.  The two malformed subscripts `temp_uold[ir * u_dimY]-ir]` and
`temp_uold[ir * u_dimY]+ir]` are taken as `temp_uold[ir * u_dimY - ir]` and
`temp_uold[ir * u_dimY + ir]`. -/
def corner_step (μ : Mem) (uold : Block) (coeff : List REAL)
    (c p coeff_dimX u_dimY : Int) (result : REAL) (ir : Nat) : Option REAL := do
  let result := result
    + (← readCell coeff (c + (-ir * coeff_dimX - ir))) * (← μ.load uold (p + (-ir * u_dimY - ir)))
  let result := result
    + (← readCell coeff (c + (-ir * coeff_dimX + ir))) * (← μ.load uold (p + (-ir * u_dimY + ir)))
  let result := result
    + (← readCell coeff (c + (ir * coeff_dimX - ir))) * (← μ.load uold (p + (ir * u_dimY - ir)))
  let result := result
    + (← readCell coeff (c + (ir * coeff_dimX + ir))) * (← μ.load uold (p + (ir * u_dimY + ir)))
  pure result

/-- Body of the `ir` loop in the `SQUARE_STENCIL` build (lines 187-195): the four Cross
statements of `ring_step`, then the four corner statements. -/
def square_ring_step (μ : Mem) (uold : Block) (coeff : List REAL)
    (c p coeff_dimX u_dimY : Int) (result : REAL) (ir : Nat) : Option REAL := do
  let result ← ring_step μ uold coeff c p coeff_dimX u_dimY result ir
  corner_step μ uold coeff c p coeff_dimX u_dimY result ir

/-- The accumulation of one cell in the `SQUARE_STENCIL` build: `result = temp_uold[0] *
coeff[0]` followed by `for (ir = 1; ir <= radius; ir++)` over `square_ring_step`. -/
def square_accumulate (μ : Mem) (uold : Block) (coeff : List REAL)
    (c p coeff_dimX u_dimY : Int) (radius : Nat) : Option REAL := do
  let result := (← μ.load uold p) * (← readCell coeff c)
  (List.range' 1 radius).foldlM (square_ring_step μ uold coeff c p coeff_dimX u_dimY) result

/-- Body of the `iy` loop of `stencil2d_seq` in the `SQUARE_STENCIL` build (lines 181-198);
the driver passes `count = coeff_dimX * coeff_dimX` (line 173). -/
def square_seq_cell (ix : Nat) (u uold : Block) (coeff : List REAL)
    (c coeff_dimX u_dimY : Int) (radius : Nat) (count : Nat) (μ : Mem) (iy : Nat) :
    Option Mem := do
  let offset : Int := (ix + radius) * u_dimY + radius + iy
  let result ← square_accumulate μ uold coeff c offset coeff_dimX u_dimY radius
  μ.store u offset (result / count)

/-- The Square sum as the specification words it: for every `(dx, dy)` in `[-r, r]^2` the
product `c[dy*T + dx] * p[dy*S + dx]`; `dy = y - r` and `dx = x - r` with `x`, `y` running
over `0 .. 2r`. -/
def square_sum (coeff src : List REAL) (c p T S : Int) (r : Nat) : REAL :=
  ∑ y in Finset.range (2 * r + 1), ∑ x in Finset.range (2 * r + 1),
    cell coeff (c + ((y : Int) - r) * T + ((x : Int) - r))
      * cell src (p + ((y : Int) - r) * S + ((x : Int) - r))

/-- State of the loops of `check_accdiff`: the running sum `acc_diff` and the two
pointers `output`, `reference`, as indices into the two buffers. -/
structure AccState where
  acc_diff : REAL
  output : Int
  reference : Int

/-- Body of the `iy` loop of `check_accdiff` (lines 48-67).  Inside the guard the two
cells are read and `fabs(*reference - *output)` is added to `acc_diff`; the relative
`error` is computed and compared with `tolerance`, but the branch it guards is empty.
Both pointers are incremented whether or not the guard holds. -/
def accdiff_cell (output reference : List REAL) (dimx dimy : Nat) (tolerance : REAL)
    (ix : Int) (s : AccState) (iy : Int) : Option AccState := do
  let acc_diff ←
    if ix ≥ 0 ∧ ix < dimx ∧ iy ≥ 0 ∧ iy < dimy then do
      let ref ← readCell reference s.reference
      let out ← readCell output s.output
      let difference := |ref - out|
      let error := if ref ≠ 0 then difference / ref else difference
      let _exceeds := decide (error > tolerance)
      pure (s.acc_diff + difference)
    else pure s.acc_diff
  pure { acc_diff := acc_diff, output := s.output + 1, reference := s.reference + 1 }

/-- The function `check_accdiff` (lines 42-71): `ix` runs from `-radius` to
`dimx + radius - 1` and `iy` from `-radius` to `dimy + radius - 1`. -/
def check_accdiff (output reference : List REAL) (dimx dimy radius : Nat)
    (tolerance : REAL) : Option REAL := do
  let s ← ((List.range (dimx + 2 * radius)).map fun k : Nat => (k : Int) - radius).foldlM
    (fun s ix =>
      ((List.range (dimy + 2 * radius)).map fun k : Nat => (k : Int) - radius).foldlM
        (accdiff_cell output reference dimx dimy tolerance ix) s)
    { acc_diff := 0, output := 0, reference := 0 }
  pure s.acc_diff

/-- What `check_accdiff` adds to the sum at row `k`, column `l` of the padded buffers:
the absolute difference of the two cells inside `[r, r+dimx) x [r, r+dimy)`, nothing
elsewhere. -/
def accdiff_term (output reference : List REAL) (dimx dimy radius k l : Nat) : REAL :=
  if radius ≤ k ∧ k < radius + dimx ∧ radius ≤ l ∧ l < radius + dimy then
    |cell reference ((k * (dimy + 2 * radius) + l : Nat) : Int)
      - cell output ((k * (dimy + 2 * radius) + l : Nat) : Int)|
  else 0

/-- What `main` has set up when its argument handling (lines 77-106) is over: the `int`
variables `num_threads` and `radius`, and the argument of the call
`omp_set_num_threads(num_threads)` when that call is made. -/
structure Config where
  num_threads : Int
  radius : Int
  omp_set_num_threads : Option Int
  deriving DecidableEq, Repr

/-- Lines 77-106 of `main`; `atoi_argv k` is the integer that `atoi(argv[k])` yields
(`0` for a non-numeric argument). -/
def main_args (argc : Nat) (atoi_argv : Nat → Int) : Config :=
  let radius : Int := 3
  let num_threads : Int := 1
  if argc = 2 then
    let num_threads := atoi_argv 1
    { num_threads := num_threads, radius := radius, omp_set_num_threads := some num_threads }
  else if argc = 3 then
    let num_threads := atoi_argv 1
    let radius := atoi_argv 2
    { num_threads := num_threads, radius := radius, omp_set_num_threads := some num_threads }
  else
    { num_threads := num_threads, radius := radius, omp_set_num_threads := none }

/-- One iteration of the `it` loop of `stencil2d_omp` (lines 229-255) in which the
work-shared `ix` loop handles the rows in the order `rows`. -/
def omp_it_sched (rows : List Nat) (m : Nat) (coeff : List REAL) (c coeff_dimX u_dimY : Int)
    (radius : Nat) (count : Nat) (s : ItState) (_it : Nat) : Option ItState := do
  let mem ← omp_for rows m s.u s.uold coeff c coeff_dimX u_dimY radius count s.mem
  let tmp := s.uold
  pure { mem := mem, uold := s.u, u := tmp }

/-- The function `stencil2d_omp` (lines 210-261) in which sweep `it` handles its rows in
the order `sched it`. -/
def stencil2d_omp_sched (sched : Nat → List Nat) (n m : Nat) (u : List REAL) (radius : Nat)
    (coeff : List REAL) (num_its : Nat) : Option (List REAL) := do
  let u_dimX : Nat := n + 2 * radius
  let u_dimY : Nat := m + 2 * radius
  let coeff_dimX : Nat := 2 * radius + 1
  let uold ← memcpy (malloc (u_dimX * u_dimY)) u (u_dimX * u_dimY)
  let c : Int := (2 * radius + 1) * radius + radius
  let count : Nat := 4 * radius + 1
  let s ← (List.range num_its).foldlM
    (fun s it => omp_it_sched (sched it) m coeff c coeff_dimX u_dimY radius count s it)
    { mem := { caller := u, scratch := uold }, u := Block.caller, uold := Block.scratch }
  pure s.mem.caller

/-- The body of the `ir` loop (`ring_step`, lines 237-240 and 187-190) with a log: besides
the running sum it returns the products it has added, in the order of the four
statements. -/
def ring_step_log (μ : Mem) (uold : Block) (coeff : List REAL) (c p coeff_dimX u_dimY : Int)
    (s : REAL × List REAL) (ir : Nat) : Option (REAL × List REAL) := do
  let right := (← readCell coeff (c + ir)) * (← μ.load uold (p + ir))
  let left := (← readCell coeff (c + -ir)) * (← μ.load uold (p + -ir))
  let up := (← readCell coeff (c + -ir * coeff_dimX)) * (← μ.load uold (p + -ir * u_dimY))
  let bottom := (← readCell coeff (c + ir * coeff_dimX)) * (← μ.load uold (p + ir * u_dimY))
  pure (s.1 + right + left + up + bottom, s.2 ++ [right, left, up, bottom])

/-- The accumulation of one cell (`accumulate`, lines 234-247 and 184-197) with the log of
the products added to `result`, the initial product `temp_uold[0] * coeff[0]` first. -/
def accumulate_log (μ : Mem) (uold : Block) (coeff : List REAL) (c p coeff_dimX u_dimY : Int)
    (radius : Nat) : Option (REAL × List REAL) := do
  let centre := (← μ.load uold p) * (← readCell coeff c)
  (List.range' 1 radius).foldlM (ring_step_log μ uold coeff c p coeff_dimX u_dimY)
    (centre, [centre])

/-- The products of ring `d` in the order the specification gives them: east
`c[+d]*p[+d]`, west `c[-d]*p[-d]`, south `c[+d*K]*p[+d*M]`, north `c[-d*K]*p[-d*M]`. -/
def ring_products_spec (coeff src : List REAL) (c p K M : Int) (d : Nat) : List REAL :=
  [cell coeff (c + d) * cell src (p + d), cell coeff (c - d) * cell src (p - d),
   cell coeff (c + d * K) * cell src (p + d * M), cell coeff (c - d * K) * cell src (p - d * M)]

/-- The sequence of products in the order the specification gives: the centre term, then
the rings `d = 1, ..., r` in ascending order, each as `ring_products_spec`. -/
def products_spec (coeff src : List REAL) (c p K M : Int) (r : Nat) : List REAL :=
  (List.range' 1 r).foldl (fun acc d => acc ++ ring_products_spec coeff src c p K M d)
    [cell coeff c * cell src p]

/-- The products of ring `d` in the order east, west, north, south. -/
def ring_products (coeff src : List REAL) (c p K M : Int) (d : Nat) : List REAL :=
  [cell coeff (c + d) * cell src (p + d), cell coeff (c - d) * cell src (p - d),
   cell coeff (c - d * K) * cell src (p - d * M), cell coeff (c + d * K) * cell src (p + d * M)]

/-- The centre term, then the rings `d = 1, ..., r` in ascending order, each as
`ring_products`. -/
def products (coeff src : List REAL) (c p K M : Int) (r : Nat) : List REAL :=
  (List.range' 1 r).foldl (fun acc d => acc ++ ring_products coeff src c p K M d)
    [cell coeff c * cell src p]

/-! ## Lemmas -/

theorem readCell_of_inBounds {a : List REAL} {i : Int} (h : InBounds a i) :
    readCell a i = some (cell a i) := by
  obtain ⟨h0, h1⟩ := h
  have hlt : i.toNat < a.length := by omega
  simp [cell, readCell, h0, List.getElem?_eq_getElem hlt]

theorem ring_step_eq (μ : Mem) (uold : Block) (coeff : List REAL) (c p K M : Int)
    (result : REAL) (d : Nat)
    (hc1 : InBounds coeff (c + d)) (hc2 : InBounds coeff (c - d))
    (hc3 : InBounds coeff (c + d * K)) (hc4 : InBounds coeff (c - d * K))
    (hp1 : InBounds (μ.block uold) (p + d)) (hp2 : InBounds (μ.block uold) (p - d))
    (hp3 : InBounds (μ.block uold) (p + d * M)) (hp4 : InBounds (μ.block uold) (p - d * M)) :
    ring_step μ uold coeff c p K M result d
      = some (result + cross_ring coeff (μ.block uold) c p K M d) := by
  have e2 : c + -(d : Int) = c - d := by ring
  have e3 : c + -(d : Int) * K = c - d * K := by ring
  have e2p : p + -(d : Int) = p - d := by ring
  have e3p : p + -(d : Int) * M = p - d * M := by ring
  simp only [ring_step, Mem.load, e2, e3, e2p, e3p, readCell_of_inBounds hc1,
    readCell_of_inBounds hc2, readCell_of_inBounds hc3, readCell_of_inBounds hc4,
    readCell_of_inBounds hp1, readCell_of_inBounds hp2, readCell_of_inBounds hp3,
    readCell_of_inBounds hp4, cross_ring]
  simp only [bind, Option.bind, pure]
  congr 1
  ring

theorem ring_loop_eq (μ : Mem) (uold : Block) (coeff : List REAL) (c p K M : Int) (r : Nat)
    (hc : CrossInBounds coeff c K r) (hp : CrossInBounds (μ.block uold) p M r) (init : REAL) :
    (List.range' 1 r).foldlM (ring_step μ uold coeff c p K M) init
      = some (init + ∑ d in Finset.Icc 1 r, cross_ring coeff (μ.block uold) c p K M d) := by
  induction r with
  | zero => simp
  | succ k ih =>
    have hc' : CrossInBounds coeff c K k :=
      ⟨hc.1, fun d h1 h2 => hc.2 d h1 (Nat.le_succ_of_le h2)⟩
    have hp' : CrossInBounds (μ.block uold) p M k :=
      ⟨hp.1, fun d h1 h2 => hp.2 d h1 (Nat.le_succ_of_le h2)⟩
    obtain ⟨a1, a2, a3, a4⟩ := hc.2 (k + 1) (by omega) (le_refl _)
    obtain ⟨b1, b2, b3, b4⟩ := hp.2 (k + 1) (by omega) (le_refl _)
    rw [List.range'_concat, List.foldlM_append, ih hc' hp']
    have e : 1 + 1 * k = k + 1 := by omega
    simp only [e, Option.some_bind, List.foldlM_cons, List.foldlM_nil,
      ring_step_eq μ uold coeff c p K M _ (k + 1) a1 a2 a3 a4 b1 b2 b3 b4]
    simp only [bind, Option.bind, pure]
    rw [Finset.sum_Icc_succ_top (by omega), add_assoc]

theorem accumulate_eq (μ : Mem) (uold : Block) (coeff : List REAL) (c p K M : Int) (r : Nat)
    (hc : CrossInBounds coeff c K r) (hp : CrossInBounds (μ.block uold) p M r) :
    accumulate μ uold coeff c p K M r = some (cross_sum coeff (μ.block uold) c p K M r) := by
  simp only [accumulate, Mem.load, readCell_of_inBounds hc.1, readCell_of_inBounds hp.1]
  simp only [bind, Option.bind]
  rw [ring_loop_eq μ uold coeff c p K M r hc hp, cross_sum, mul_comm]

@[simp] theorem Mem.block_setBlock_same (μ : Mem) (b : Block) (l : List REAL) :
    (μ.setBlock b l).block b = l := by
  cases b <;> rfl

theorem Mem.block_setBlock_other (μ : Mem) {b b' : Block} (l : List REAL) (h : b' ≠ b) :
    (μ.setBlock b l).block b' = μ.block b' := by
  cases b <;> cases b' <;> first | rfl | exact absurd rfl h

theorem foldlM_writes {α : Type} (f : Mem → α → Option Mem) (F : Nat → REAL)
    (W : α → Nat → Prop) (u uold : Block) (src : List REAL) (L : Nat) (xs : List α)
    (hf : ∀ x ∈ xs, ∀ μ : Mem, μ.block uold = src → (μ.block u).length = L →
      ∃ μ', f μ x = some μ' ∧ Writes F (W x) u uold μ μ') :
    ∀ μ : Mem, μ.block uold = src → (μ.block u).length = L →
      ∃ μ', xs.foldlM f μ = some μ' ∧ Writes F (fun k => ∃ x ∈ xs, W x k) u uold μ μ' := by
  induction xs with
  | nil =>
    intro μ _ _
    exact ⟨μ, rfl, rfl, rfl, by simp, by simp⟩
  | cons x xs ih =>
    intro μ h1 h2
    obtain ⟨μ1, e1, w1, w2, w3, w4⟩ := hf x (List.mem_cons_self _ _) μ h1 h2
    obtain ⟨μ2, e2, v1, v2, v3, v4⟩ :=
      ih (fun y hy => hf y (List.mem_cons_of_mem _ hy)) μ1 (w1.trans h1) (w2.trans h2)
    refine ⟨μ2, ?_, v1.trans w1, v2.trans w2, ?_, ?_⟩
    · simp [List.foldlM_cons, e1, e2]
    · rintro k ⟨y, hy, hk⟩
      by_cases hin : ∃ z ∈ xs, W z k
      · exact v3 k hin
      · rw [v4 k hin]
        rcases List.mem_cons.1 hy with rfl | hy'
        · exact w3 k hk
        · exact absurd ⟨y, hy', hk⟩ hin
    · intro k hk
      have hx : ¬ W x k := fun h => hk ⟨x, List.mem_cons_self _ _, h⟩
      have hxs : ¬ ∃ z ∈ xs, W z k := fun ⟨z, hz, h⟩ => hk ⟨z, List.mem_cons_of_mem _ hz, h⟩
      rw [v4 k hxs, w4 k hx]

theorem store_writes (μ : Mem) (u uold : Block) (hne : u ≠ uold) (F : Nat → REAL) (p : Nat)
    (hp : p < (μ.block u).length) :
    ∃ μ', μ.store u (p : Int) (F p) = some μ' ∧ Writes F (fun k => k = p) u uold μ μ' := by
  refine ⟨μ.setBlock u ((μ.block u).set p (F p)), ?_, ?_, ?_, ?_, ?_⟩
  · simp [Mem.store, writeCell, hp]
  · exact Mem.block_setBlock_other μ _ (Ne.symm hne)
  · simp
  · rintro k rfl
    simp [List.getElem?_set, hp]
  · intro k hk
    have : p ≠ k := fun h => hk h.symm
    simp [List.getElem?_set, this]

theorem coeff_crossInBounds (coeff : List REAL) (r : Nat)
    (hlen : coeff.length = (2 * r + 1) * (2 * r + 1)) :
    CrossInBounds coeff (((2 * r + 1 : Nat) : Int) * r + r) ((2 * r + 1 : Nat) : Int) r := by
  have hL : ((coeff.length : Nat) : Int) = (2 * (r : Int) + 1) * (2 * r + 1) := by
    rw [hlen]; push_cast; ring
  refine ⟨⟨by positivity, ?_⟩, ?_⟩
  · rw [hL]; push_cast; nlinarith [Int.ofNat_nonneg r]
  · intro d h1 h2
    have hd : (1 : Int) ≤ d := by exact_mod_cast h1
    have hd2 : (d : Int) ≤ r := by exact_mod_cast h2
    have hr : (0 : Int) ≤ r := Int.ofNat_nonneg r
    have hdr : (d : Int) * r ≤ r * r := by nlinarith
    have hdr0 : 0 ≤ (d : Int) * r := by positivity
    simp only [InBounds, hL]
    push_cast
    refine ⟨⟨?_, ?_⟩, ⟨?_, ?_⟩, ⟨?_, ?_⟩, ⟨?_, ?_⟩⟩ <;> nlinarith

theorem grid_crossInBounds (src : List REAL) (n m r ix iy : Nat)
    (hlen : src.length = (n + 2 * r) * (m + 2 * r)) (hix : ix < n) (hiy : iy < m) :
    CrossInBounds src (cell_index m r ix iy : Nat) ((m + 2 * r : Nat) : Int) r := by
  have hL : ((src.length : Nat) : Int) = ((n : Int) + 2 * r) * (m + 2 * r) := by
    rw [hlen]; push_cast; ring
  have hr : (0 : Int) ≤ r := Int.ofNat_nonneg r
  have hx0 : (0 : Int) ≤ ix := Int.ofNat_nonneg ix
  have hy0 : (0 : Int) ≤ iy := Int.ofNat_nonneg iy
  have hx : (ix : Int) + 1 ≤ n := by exact_mod_cast hix
  have hy : (iy : Int) + 1 ≤ m := by exact_mod_cast hiy
  have hM : (0 : Int) ≤ (m : Int) + 2 * r := by positivity
  have key : ((ix : Int) + 1) * (m + 2 * r) ≤ (n : Int) * (m + 2 * r) :=
    mul_le_mul_of_nonneg_right hx hM
  have hxM : 0 ≤ (ix : Int) * (m + 2 * r) := mul_nonneg hx0 hM
  have hrM : 0 ≤ (r : Int) * (m + 2 * r) := mul_nonneg hr hM
  refine ⟨⟨by positivity, ?_⟩, ?_⟩
  · rw [hL]; simp only [cell_index]; push_cast; linarith
  · intro d h1 h2
    have hd : (1 : Int) ≤ d := by exact_mod_cast h1
    have hd2 : (d : Int) ≤ r := by exact_mod_cast h2
    have hdM : (d : Int) * (m + 2 * r) ≤ r * (m + 2 * r) :=
      mul_le_mul_of_nonneg_right hd2 hM
    have hdM0 : 0 ≤ (d : Int) * (m + 2 * r) := mul_nonneg (by linarith) hM
    simp only [InBounds, hL, cell_index]
    push_cast
    refine ⟨⟨?_, ?_⟩, ⟨?_, ?_⟩, ⟨?_, ?_⟩, ⟨?_, ?_⟩⟩ <;> linarith

theorem cell_index_lt (n m r ix iy : Nat) (hix : ix < n) (hiy : iy < m) :
    cell_index m r ix iy < (n + 2 * r) * (m + 2 * r) := by
  have h : (ix + r + 1) * (m + 2 * r) ≤ (n + 2 * r) * (m + 2 * r) :=
    Nat.mul_le_mul_right _ (by omega)
  have e : (ix + r + 1) * (m + 2 * r) = (ix + r) * (m + 2 * r) + (m + 2 * r) := by ring
  simp only [cell_index]
  omega

theorem omp_cell_eq_seq_cell (ix : Nat) (u uold : Block) (coeff : List REAL)
    (c K M : Int) (r count : Nat) (μ : Mem) (a : Nat) :
    omp_cell u uold coeff c K M r count
        { mem := μ, temp_u := (ix + r) * M + r + a, temp_uold := (ix + r) * M + r + a } a
      = (seq_cell ix u uold coeff c K M r count μ a).map fun μ' =>
          { mem := μ', temp_u := (ix + r) * M + r + (a + 1 : Nat),
            temp_uold := (ix + r) * M + r + (a + 1 : Nat) } := by
  simp only [omp_cell, seq_cell]
  cases accumulate μ uold coeff c ((ix + r) * M + r + a) K M r with
  | none => rfl
  | some v =>
    simp only [Option.some_bind, bind, Option.bind]
    cases μ.store u ((ix + r) * M + r + a) (v / count) with
    | none => rfl
    | some μ' =>
      simp only [Option.map, pure]
      congr 2 <;> push_cast <;> ring

theorem omp_cells_eq_seq_cells (ix : Nat) (u uold : Block) (coeff : List REAL)
    (c K M : Int) (r count : Nat) (k : Nat) :
    ∀ (a : Nat) (μ : Mem),
      (List.range' a k).foldlM (omp_cell u uold coeff c K M r count)
          { mem := μ, temp_u := (ix + r) * M + r + a, temp_uold := (ix + r) * M + r + a }
        = ((List.range' a k).foldlM (seq_cell ix u uold coeff c K M r count) μ).map fun μ' =>
            { mem := μ', temp_u := (ix + r) * M + r + (a + k : Nat),
              temp_uold := (ix + r) * M + r + (a + k : Nat) } := by
  induction k with
  | zero => intro a μ; simp
  | succ k ih =>
    intro a μ
    rw [List.range'_succ, List.foldlM_cons, List.foldlM_cons, omp_cell_eq_seq_cell]
    cases seq_cell ix u uold coeff c K M r count μ a with
    | none => rfl
    | some μ' =>
      simp only [Option.map, Option.some_bind, bind, Option.bind]
      rw [ih (a + 1) μ']
      have e : a + 1 + k = a + (k + 1) := by omega
      rw [e]
      cases List.foldlM (seq_cell ix u uold coeff c K M r count) μ' (List.range' (a + 1) k) <;> rfl

theorem omp_row_eq_seq_row (m : Nat) (u uold : Block) (coeff : List REAL)
    (c K M : Int) (r count : Nat) (μ : Mem) (ix : Nat) :
    omp_row m u uold coeff c K M r count μ ix = seq_row m u uold coeff c K M r count μ ix := by
  have h := omp_cells_eq_seq_cells ix u uold coeff c K M r count m 0 μ
  simp only [Nat.cast_zero, add_zero, ← List.range_eq_range'] at h
  simp only [omp_row, seq_row, h]
  cases (List.range m).foldlM (seq_cell ix u uold coeff c K M r count) μ <;> rfl

theorem omp_it_eq_seq_it (n m : Nat) (coeff : List REAL) (c K M : Int) (r count : Nat)
    (s : ItState) (t : Nat) :
    omp_it n m coeff c K M r count s t = seq_it n m coeff c K M r count s t := by
  have h : omp_row m s.u s.uold coeff c K M r count = seq_row m s.u s.uold coeff c K M r count := by
    funext μ ix; exact omp_row_eq_seq_row m s.u s.uold coeff c K M r count μ ix
  simp only [omp_it, seq_it, omp_for, h]

theorem stencil2d_omp_eq_seq (n m : Nat) (u : List REAL) (r : Nat) (coeff : List REAL)
    (num_its : Nat) :
    stencil2d_omp n m u r coeff num_its = stencil2d_seq n m u r coeff num_its := by
  have h : ∀ c K M, omp_it n m coeff c K M r (4 * r + 1) = seq_it n m coeff c K M r (4 * r + 1) := by
    intro c K M; funext s t; exact omp_it_eq_seq_it n m coeff c K M r _ s t
  have e : ((2 : Int) * r + 1) * r + r = ((2 * r + 1 : Nat) : Int) * r + r := by push_cast; ring
  simp only [stencil2d_omp, stencil2d_seq, h, e]

theorem interior_iff (n m r k : Nat) :
    Interior n m r k ↔ ∃ ix, ix < n ∧ ∃ iy, iy < m ∧ k = cell_index m r ix iy := by
  constructor
  · rintro ⟨h1, h2, h3, h4⟩
    refine ⟨k / (m + 2 * r) - r, by omega, k % (m + 2 * r) - r, by omega, ?_⟩
    have e := Nat.div_add_mod k (m + 2 * r)
    have e1 : k / (m + 2 * r) - r + r = k / (m + 2 * r) := by omega
    simp only [cell_index, e1]
    rw [Nat.mul_comm] at e
    omega
  · rintro ⟨ix, hix, iy, hiy, rfl⟩
    have hM : 0 < m + 2 * r := by omega
    have e : cell_index m r ix iy = (r + iy) + (ix + r) * (m + 2 * r) := by
      simp only [cell_index]; omega
    have hd : cell_index m r ix iy / (m + 2 * r) = ix + r := by
      rw [e, Nat.add_mul_div_right _ _ hM, Nat.div_eq_of_lt (by omega)]; omega
    have hm : cell_index m r ix iy % (m + 2 * r) = r + iy := by
      rw [e, Nat.add_mul_mod_self_right, Nat.mod_eq_of_lt (by omega)]
    simp only [Interior, hd, hm]
    omega

theorem Mem.eq_setBlock_of_blocks {μ μ' : Mem} {u uold : Block} (hne : u ≠ uold)
    (l : List REAL) (h1 : μ'.block u = l) (h2 : μ'.block uold = μ.block uold) :
    μ' = μ.setBlock u l := by
  cases μ; cases μ'
  cases u <;> cases uold <;> simp_all [Mem.block, Mem.setBlock]

theorem seq_cell_writes (n m r ix iy : Nat) (u uold : Block) (hne : u ≠ uold)
    (coeff : List REAL) (μ : Mem)
    (hcl : coeff.length = (2 * r + 1) * (2 * r + 1))
    (hsrc : (μ.block uold).length = (n + 2 * r) * (m + 2 * r))
    (hdst : (μ.block u).length = (n + 2 * r) * (m + 2 * r))
    (hix : ix < n) (hiy : iy < m) :
    ∃ μ', seq_cell ix u uold coeff (((2 * r + 1 : Nat) : Int) * r + r) ((2 * r + 1 : Nat) : Int)
        ((m + 2 * r : Nat) : Int) r (4 * r + 1) μ iy = some μ' ∧
      Writes (cell_value coeff (μ.block uold) m r) (fun k => k = cell_index m r ix iy)
        u uold μ μ' := by
  have e : ((ix : Int) + r) * ((m + 2 * r : Nat) : Int) + r + iy
      = ((cell_index m r ix iy : Nat) : Int) := by
    simp only [cell_index]; push_cast; ring
  simp only [seq_cell, e]
  rw [accumulate_eq μ uold coeff _ _ _ _ r (coeff_crossInBounds coeff r hcl)
    (grid_crossInBounds _ n m r ix iy hsrc hix hiy)]
  simp only [Option.some_bind, bind, Option.bind]
  exact store_writes μ u uold hne (cell_value coeff (μ.block uold) m r) (cell_index m r ix iy)
    (by rw [hdst]; exact cell_index_lt n m r ix iy hix hiy)

theorem seq_row_writes (n m r ix : Nat) (u uold : Block) (hne : u ≠ uold)
    (coeff src : List REAL) (μ : Mem)
    (hcl : coeff.length = (2 * r + 1) * (2 * r + 1))
    (hsrc : src.length = (n + 2 * r) * (m + 2 * r))
    (hμ : μ.block uold = src)
    (hdst : (μ.block u).length = (n + 2 * r) * (m + 2 * r))
    (hix : ix < n) :
    ∃ μ', seq_row m u uold coeff (((2 * r + 1 : Nat) : Int) * r + r) ((2 * r + 1 : Nat) : Int)
        ((m + 2 * r : Nat) : Int) r (4 * r + 1) μ ix = some μ' ∧
      Writes (cell_value coeff src m r)
        (fun k => ∃ iy ∈ List.range m, k = cell_index m r ix iy) u uold μ μ' := by
  refine foldlM_writes _ (cell_value coeff src m r) (fun iy k => k = cell_index m r ix iy)
    u uold src ((n + 2 * r) * (m + 2 * r)) (List.range m) ?_ μ hμ hdst
  intro iy hiy ν h1 h2
  have h := seq_cell_writes n m r ix iy u uold hne coeff ν hcl (by rw [h1]; exact hsrc) h2 hix
    (List.mem_range.1 hiy)
  rw [h1] at h
  exact h

theorem seq_rows_writes (n m r : Nat) (rows : List Nat) (hrows : ∀ ix ∈ rows, ix < n)
    (u uold : Block) (hne : u ≠ uold) (coeff src : List REAL) (μ : Mem)
    (hcl : coeff.length = (2 * r + 1) * (2 * r + 1))
    (hsrc : src.length = (n + 2 * r) * (m + 2 * r))
    (hμ : μ.block uold = src)
    (hdst : (μ.block u).length = (n + 2 * r) * (m + 2 * r)) :
    ∃ μ', rows.foldlM (seq_row m u uold coeff (((2 * r + 1 : Nat) : Int) * r + r)
        ((2 * r + 1 : Nat) : Int) ((m + 2 * r : Nat) : Int) r (4 * r + 1)) μ = some μ' ∧
      Writes (cell_value coeff src m r)
        (fun k => ∃ ix ∈ rows, ∃ iy ∈ List.range m, k = cell_index m r ix iy) u uold μ μ' := by
  refine foldlM_writes _ (cell_value coeff src m r)
    (fun ix k => ∃ iy ∈ List.range m, k = cell_index m r ix iy)
    u uold src ((n + 2 * r) * (m + 2 * r)) rows ?_ μ hμ hdst
  intro ix hix ν h1 h2
  exact seq_row_writes n m r ix u uold hne coeff src ν hcl hsrc h1 h2 (hrows ix hix)

theorem writes_eq_sweep_into (n m r : Nat) (rows : List Nat) (hrows : ∀ ix, ix ∈ rows ↔ ix < n)
    (u uold : Block) (hne : u ≠ uold) (coeff src : List REAL) (μ μ' : Mem)
    (hw : Writes (cell_value coeff src m r)
      (fun k => ∃ ix ∈ rows, ∃ iy ∈ List.range m, k = cell_index m r ix iy) u uold μ μ') :
    μ' = μ.setBlock u (sweep_into n m r coeff src (μ.block u)) := by
  obtain ⟨w1, w2, w3, w4⟩ := hw
  have hW : ∀ k, (∃ ix ∈ rows, ∃ iy ∈ List.range m, k = cell_index m r ix iy)
      ↔ Interior n m r k := by
    intro k
    rw [interior_iff]
    constructor
    · rintro ⟨ix, hix, iy, hiy, hk⟩
      exact ⟨ix, (hrows ix).1 hix, iy, List.mem_range.1 hiy, hk⟩
    · rintro ⟨ix, hix, iy, hiy, hk⟩
      exact ⟨ix, (hrows ix).2 hix, iy, List.mem_range.2 hiy, hk⟩
  refine Mem.eq_setBlock_of_blocks hne _ ?_ w1
  apply List.ext_getElem?
  intro k
  by_cases hk : k < (μ.block u).length
  · by_cases hin : Interior n m r k
    · rw [w3 k ((hW k).2 hin)]
      simp [sweep_into, hk, hin]
    · rw [w4 k (fun h => hin ((hW k).1 h))]
      simp [sweep_into, hk, hin, List.getD_eq_getElem?_getD, List.getElem?_eq_getElem hk]
  · have h1 : (μ'.block u)[k]? = none := List.getElem?_eq_none (by omega)
    have h2 : (sweep_into n m r coeff src (μ.block u))[k]? = none :=
      List.getElem?_eq_none (by simp [sweep_into]; omega)
    rw [h1, h2]

/-- One work-shared sweep, with the rows taken in any order that covers `0 .. n-1`,
succeeds and stores `sweep_into` of the source block into the destination block. -/
theorem omp_for_eq (n m r : Nat) (rows : List Nat) (hrows : ∀ ix, ix ∈ rows ↔ ix < n)
    (u uold : Block) (hne : u ≠ uold) (coeff : List REAL) (μ : Mem)
    (hcl : coeff.length = (2 * r + 1) * (2 * r + 1))
    (hsrc : (μ.block uold).length = (n + 2 * r) * (m + 2 * r))
    (hdst : (μ.block u).length = (n + 2 * r) * (m + 2 * r)) :
    omp_for rows m u uold coeff (((2 * r + 1 : Nat) : Int) * r + r) ((2 * r + 1 : Nat) : Int)
        ((m + 2 * r : Nat) : Int) r (4 * r + 1) μ
      = some (μ.setBlock u (sweep_into n m r coeff (μ.block uold) (μ.block u))) := by
  have h : omp_row m u uold coeff (((2 * r + 1 : Nat) : Int) * r + r) ((2 * r + 1 : Nat) : Int)
        ((m + 2 * r : Nat) : Int) r (4 * r + 1)
      = seq_row m u uold coeff (((2 * r + 1 : Nat) : Int) * r + r) ((2 * r + 1 : Nat) : Int)
        ((m + 2 * r : Nat) : Int) r (4 * r + 1) := by
    funext ν ix; exact omp_row_eq_seq_row _ _ _ _ _ _ _ _ _ _ _
  obtain ⟨μ', e, hw⟩ := seq_rows_writes n m r rows (fun ix hix => (hrows ix).1 hix) u uold hne
    coeff (μ.block uold) μ hcl hsrc rfl hdst
  rw [omp_for, h, e, writes_eq_sweep_into n m r rows hrows u uold hne coeff _ μ μ' hw]

theorem SameHalo.refl (n m r : Nat) (X : List REAL) : SameHalo n m r X X :=
  ⟨rfl, fun _ _ => rfl⟩

theorem SameHalo.trans {n m r : Nat} {X Y Z : List REAL} (h1 : SameHalo n m r X Y)
    (h2 : SameHalo n m r Y Z) : SameHalo n m r X Z :=
  ⟨h1.1.trans h2.1, fun k hk => (h1.2 k hk).trans (h2.2 k hk)⟩

theorem length_sweep_into (n m r : Nat) (coeff src dst : List REAL) :
    (sweep_into n m r coeff src dst).length = dst.length := by
  simp [sweep_into]

theorem getElem?_sweep_into (n m r : Nat) (coeff src dst : List REAL) (k : Nat) :
    (sweep_into n m r coeff src dst)[k]?
      = if k < dst.length then
          some (if Interior n m r k then cell_value coeff src m r k else dst.getD k 0)
        else none := by
  by_cases hk : k < dst.length
  · simp [sweep_into, hk]
  · simp [sweep_into, hk]
    omega

theorem sweep_into_sameHalo (n m r : Nat) (coeff src dst : List REAL) :
    SameHalo n m r (sweep_into n m r coeff src dst) dst := by
  refine ⟨length_sweep_into n m r coeff src dst, fun k hk => ?_⟩
  rw [getElem?_sweep_into]
  by_cases hlt : k < dst.length
  · simp [hlt, hk, List.getD_eq_getElem?_getD, List.getElem?_eq_getElem hlt]
  · simp [hlt, List.getElem?_eq_none (Nat.le_of_not_lt hlt)]

theorem sweep_into_congr (n m r : Nat) (coeff src : List REAL) {dst dst' : List REAL}
    (h : SameHalo n m r dst dst') :
    sweep_into n m r coeff src dst = sweep_into n m r coeff src dst' := by
  apply List.ext_getElem?
  intro k
  rw [getElem?_sweep_into, getElem?_sweep_into, h.1]
  by_cases hlt : k < dst'.length
  · by_cases hin : Interior n m r k
    · simp [hlt, hin]
    · simp [hlt, hin, List.getD_eq_getElem?_getD, h.2 k hin]
  · simp [hlt]

theorem sweep_sameHalo (n m r : Nat) (coeff X : List REAL) :
    SameHalo n m r (sweep n m r coeff X) X :=
  sweep_into_sameHalo n m r coeff X X

theorem iterate_sweep_sameHalo (n m r : Nat) (coeff X : List REAL) (t : Nat) :
    SameHalo n m r ((sweep n m r coeff)^[t] X) X := by
  induction t with
  | zero => exact SameHalo.refl n m r X
  | succ t ih =>
    rw [Function.iterate_succ_apply']
    exact (sweep_sameHalo n m r coeff _).trans ih

theorem it_state_even (n m r : Nat) (coeff U0 : List REAL) (t : Nat) (h : t % 2 = 0) :
    it_state n m r coeff U0 t
      = { mem := { caller := (sweep n m r coeff)^[t - 1] U0,
                   scratch := (sweep n m r coeff)^[t] U0 },
          u := Block.caller, uold := Block.scratch } := by
  simp [it_state, caller_sweeps, scratch_sweeps, h]

theorem it_state_odd (n m r : Nat) (coeff U0 : List REAL) (t : Nat) (h : t % 2 = 1) :
    it_state n m r coeff U0 t
      = { mem := { caller := (sweep n m r coeff)^[t] U0,
                   scratch := (sweep n m r coeff)^[t - 1] U0 },
          u := Block.scratch, uold := Block.caller } := by
  simp [it_state, caller_sweeps, scratch_sweeps, h]

theorem omp_it_it_state (n m r : Nat) (coeff U0 : List REAL)
    (hcl : coeff.length = (2 * r + 1) * (2 * r + 1))
    (hlen : U0.length = (n + 2 * r) * (m + 2 * r)) (t : Nat) :
    omp_it n m coeff (((2 * r + 1 : Nat) : Int) * r + r) ((2 * r + 1 : Nat) : Int)
        ((m + 2 * r : Nat) : Int) r (4 * r + 1) (it_state n m r coeff U0 t) t
      = some (it_state n m r coeff U0 (t + 1)) := by
  have hL : ∀ j, ((sweep n m r coeff)^[j] U0).length = (n + 2 * r) * (m + 2 * r) := fun j =>
    (iterate_sweep_sameHalo n m r coeff U0 j).1.trans hlen
  have hH : ∀ i j, SameHalo n m r ((sweep n m r coeff)^[i] U0) ((sweep n m r coeff)^[j] U0) :=
    fun i j => (iterate_sweep_sameHalo n m r coeff U0 i).trans
      ⟨(iterate_sweep_sameHalo n m r coeff U0 j).1.symm,
        fun k hk => ((iterate_sweep_sameHalo n m r coeff U0 j).2 k hk).symm⟩
  rcases Nat.mod_two_eq_zero_or_one t with h0 | h1
  · rw [it_state_even n m r coeff U0 t h0, it_state_odd n m r coeff U0 (t + 1) (by omega)]
    simp only [omp_it]
    rw [omp_for_eq n m r (List.range n) (fun ix => List.mem_range) _ _ (by decide) coeff _ hcl
      (by simpa [Mem.block] using hL _) (by simpa [Mem.block] using hL _)]
    simp only [Option.some_bind, bind, Option.bind, pure, Mem.block, Mem.setBlock,
      Nat.add_sub_cancel]
    rw [sweep_into_congr n m r coeff _ (hH _ t), Function.iterate_succ_apply']
    rfl
  · rw [it_state_odd n m r coeff U0 t h1, it_state_even n m r coeff U0 (t + 1) (by omega)]
    simp only [omp_it]
    rw [omp_for_eq n m r (List.range n) (fun ix => List.mem_range) _ _ (by decide) coeff _ hcl
      (by simpa [Mem.block] using hL _) (by simpa [Mem.block] using hL _)]
    simp only [Option.some_bind, bind, Option.bind, pure, Mem.block, Mem.setBlock,
      Nat.add_sub_cancel]
    rw [sweep_into_congr n m r coeff _ (hH _ t), Function.iterate_succ_apply']
    rfl

theorem it_loop_eq (n m r : Nat) (coeff U0 : List REAL)
    (hcl : coeff.length = (2 * r + 1) * (2 * r + 1))
    (hlen : U0.length = (n + 2 * r) * (m + 2 * r)) (t : Nat) :
    (List.range t).foldlM (omp_it n m coeff (((2 * r + 1 : Nat) : Int) * r + r)
        ((2 * r + 1 : Nat) : Int) ((m + 2 * r : Nat) : Int) r (4 * r + 1))
        (it_state n m r coeff U0 0)
      = some (it_state n m r coeff U0 t) := by
  induction t with
  | zero => rfl
  | succ t ih =>
    rw [List.range_succ, List.foldlM_append, ih]
    simp only [List.foldlM_cons, List.foldlM_nil, bind_pure, Option.bind_eq_bind,
      Option.some_bind]
    exact omp_it_it_state n m r coeff U0 hcl hlen t

theorem memcpy_malloc (u : List REAL) (cnt : Nat) (h : u.length = cnt) :
    memcpy (malloc cnt) u cnt = some u := by
  subst h
  simp [memcpy, malloc]

/-- The driver succeeds and leaves in the caller's block the grid obtained by
`caller_sweeps num_its` sweeps. -/
theorem stencil2d_omp_eq (n m : Nat) (u : List REAL) (r : Nat) (coeff : List REAL)
    (num_its : Nat) (hcl : coeff.length = (2 * r + 1) * (2 * r + 1))
    (hlen : u.length = (n + 2 * r) * (m + 2 * r)) :
    stencil2d_omp n m u r coeff num_its
      = some ((sweep n m r coeff)^[caller_sweeps num_its] u) := by
  have e : ((2 : Int) * r + 1) * r + r = ((2 * r + 1 : Nat) : Int) * r + r := by push_cast; ring
  have h := it_loop_eq n m r coeff u hcl hlen num_its
  have h0 : it_state n m r coeff u 0
      = { mem := { caller := u, scratch := u }, u := Block.caller, uold := Block.scratch } := rfl
  rw [h0] at h
  simp only [stencil2d_omp, memcpy_malloc u _ hlen, e, Option.some_bind, bind, Option.bind, h]
  rfl


theorem getElem?_sweep_into_interior (n m r : Nat) (coeff src dst : List REAL)
    (hdst : dst.length = (n + 2 * r) * (m + 2 * r)) (i j : Nat) (hi : i < n) (hj : j < m) :
    (sweep_into n m r coeff src dst)[(i + r) * (m + 2 * r) + (j + r)]?
      = some (cell_value coeff src m r ((i + r) * (m + 2 * r) + (j + r))) := by
  have e : (i + r) * (m + 2 * r) + (j + r) = cell_index m r i j := by
    simp only [cell_index]; omega
  have hin : Interior n m r (cell_index m r i j) := (interior_iff n m r _).2 ⟨i, hi, j, hj, rfl⟩
  rw [e, getElem?_sweep_into, if_pos (by rw [hdst]; exact cell_index_lt n m r i j hi hj),
    if_pos hin]

theorem getElem?_sweep_into_halo (n m r : Nat) (coeff src dst : List REAL) (k : Nat)
    (hk : ¬ Interior n m r k) :
    (sweep_into n m r coeff src dst)[k]? = dst[k]? :=
  (sweep_into_sameHalo n m r coeff src dst).2 k hk

/-- C1. One iteration of the `it` loop of `stencil2d_omp`, and of `stencil2d_seq`, started
in any state whose two pointers name different blocks of `(n+2r)*(m+2r)` cells, with a
kernel of `(2r+1)^2` cells, succeeds, both loops reach the same state, and for every
interior `(i, j)` the destination cell `(i+r)*M + (j+r)` then holds
`(c[0]*p[0] + sum over d in [1,r] of (c[+d]*p[+d] + c[-d]*p[-d] + c[+d*K]*p[+d*M]
+ c[-d*K]*p[-d*M])) / (4r+1)`, with `p` the same index in the source block and `c` the
kernel centre `(2r+1)*r + r`. -/
theorem C1_sweep_reference (n m r : Nat) (coeff : List REAL) (s : ItState) (t i j : Nat)
    (hne : s.u ≠ s.uold)
    (hcl : coeff.length = (2 * r + 1) * (2 * r + 1))
    (hsrc : (s.mem.block s.uold).length = (n + 2 * r) * (m + 2 * r))
    (hdst : (s.mem.block s.u).length = (n + 2 * r) * (m + 2 * r))
    (hi : i < n) (hj : j < m) :
    ∃ s', omp_it n m coeff ((2 * r + 1) * r + r) (2 * r + 1 : Nat) (m + 2 * r : Nat) r
          (4 * r + 1) s t = some s'
      ∧ seq_it n m coeff ((2 * r + 1 : Nat) * r + r) (2 * r + 1 : Nat) (m + 2 * r : Nat) r
          (4 * r + 1) s t = some s'
      ∧ (s'.mem.block s.u)[(i + r) * (m + 2 * r) + (j + r)]?
        = some ((cell coeff ((2 * r + 1) * r + r)
              * cell (s.mem.block s.uold) ((i + r) * (m + 2 * r) + (j + r))
            + ∑ d in Finset.Icc 1 r,
              (cell coeff ((2 * r + 1) * r + r + d)
                  * cell (s.mem.block s.uold) ((i + r) * (m + 2 * r) + (j + r) + d)
                + cell coeff ((2 * r + 1) * r + r - d)
                  * cell (s.mem.block s.uold) ((i + r) * (m + 2 * r) + (j + r) - d)
                + cell coeff ((2 * r + 1) * r + r + d * (2 * r + 1))
                  * cell (s.mem.block s.uold)
                      ((i + r) * (m + 2 * r) + (j + r) + d * (m + 2 * r))
                + cell coeff ((2 * r + 1) * r + r - d * (2 * r + 1))
                  * cell (s.mem.block s.uold)
                      ((i + r) * (m + 2 * r) + (j + r) - d * (m + 2 * r))))
          / (4 * r + 1)) := by
  have e : ((2 : Int) * r + 1) * r + r = ((2 * r + 1 : Nat) : Int) * r + r := by push_cast; ring
  have hfor := omp_for_eq n m r (List.range n) (fun ix => List.mem_range) s.u s.uold hne coeff
    s.mem hcl hsrc hdst
  refine ⟨{ mem := s.mem.setBlock s.u (sweep_into n m r coeff (s.mem.block s.uold)
      (s.mem.block s.u)), uold := s.u, u := s.uold }, ?_, ?_, ?_⟩
  · rw [e]
    simp only [omp_it, hfor, Option.some_bind, bind, Option.bind, pure]
  · rw [← omp_it_eq_seq_it]
    simp only [omp_it, hfor, Option.some_bind, bind, Option.bind, pure]
  · rw [Mem.block_setBlock_same, getElem?_sweep_into_interior n m r coeff _ _ hdst i j hi hj]
    simp only [cell_value, cross_sum, cross_ring]
    push_cast
    rfl


/-- Witness of C1: a single interior cell (`n = m = 1`, `r = 1`), the sweep reading the
allocated block and writing the caller's block. -/
theorem C1_sweep_reference_witness :
    (Block.caller ≠ Block.scratch
      ∧ ([1, 2, 3, 4, 5, 6, 7, 8, 9] : List REAL).length = (2 * 1 + 1) * (2 * 1 + 1)
      ∧ ([9, 8, 7, 6, 5, 4, 3, 2, 1] : List REAL).length = (1 + 2 * 1) * (1 + 2 * 1)
      ∧ ([0, 0, 0, 0, 0, 0, 0, 0, 0] : List REAL).length = (1 + 2 * 1) * (1 + 2 * 1)
      ∧ 0 < 1)
    ∧ ∃ s', omp_it 1 1 [1, 2, 3, 4, 5, 6, 7, 8, 9] 4 3 3 1 5
          { mem := { caller := [0, 0, 0, 0, 0, 0, 0, 0, 0],
                     scratch := [9, 8, 7, 6, 5, 4, 3, 2, 1] },
            u := Block.caller, uold := Block.scratch } 0 = some s'
      ∧ seq_it 1 1 [1, 2, 3, 4, 5, 6, 7, 8, 9] 4 3 3 1 5
          { mem := { caller := [0, 0, 0, 0, 0, 0, 0, 0, 0],
                     scratch := [9, 8, 7, 6, 5, 4, 3, 2, 1] },
            u := Block.caller, uold := Block.scratch } 0 = some s'
      ∧ (s'.mem.block Block.caller)[4]? = some 21 := by
  refine ⟨⟨by decide, rfl, rfl, rfl, by decide⟩, ?_⟩
  obtain ⟨s', h1, h2, h3⟩ := C1_sweep_reference 1 1 1 [1, 2, 3, 4, 5, 6, 7, 8, 9]
    { mem := { caller := [0, 0, 0, 0, 0, 0, 0, 0, 0], scratch := [9, 8, 7, 6, 5, 4, 3, 2, 1] },
      u := Block.caller, uold := Block.scratch } 0 0 0 (by decide) rfl rfl rfl (by decide)
    (by decide)
  refine ⟨s', h1, h2, ?_⟩
  rw [show (4 : Nat) = (0 + 1) * (1 + 2 * 1) + (0 + 1) from rfl]
  refine h3.trans ?_
  simp [cell, readCell, Mem.block]
  norm_num


theorem stencil2d_seq_eq (n m : Nat) (u : List REAL) (r : Nat) (coeff : List REAL)
    (num_its : Nat) (hcl : coeff.length = (2 * r + 1) * (2 * r + 1))
    (hlen : u.length = (n + 2 * r) * (m + 2 * r)) :
    stencil2d_seq n m u r coeff num_its
      = some ((sweep n m r coeff)^[caller_sweeps num_its] u) := by
  rw [← stencil2d_omp_eq_seq]
  exact stencil2d_omp_eq n m u r coeff num_its hcl hlen

/-- C2 (counterexample). Called with `I = 2` on a single interior cell holding `1`
(`n = m = 1`, `r = 1`, kernel with centre `10`, so that one sweep doubles the cell), both
drivers return with the caller's block holding `2`, the output of sweep `0`; the output
of the last sweep, sweep `1`, is `4` and sits in the allocated block, the one the final
pointer `uold` names. -/
theorem C2_final_buffer_counterexample :
    stencil2d_omp 1 1 [0, 0, 0, 0, 1, 0, 0, 0, 0] 1 [0, 0, 0, 0, 10, 0, 0, 0, 0] 2
        = some [0, 0, 0, 0, 2, 0, 0, 0, 0]
    ∧ stencil2d_seq 1 1 [0, 0, 0, 0, 1, 0, 0, 0, 0] 1 [0, 0, 0, 0, 10, 0, 0, 0, 0] 2
        = some [0, 0, 0, 0, 2, 0, 0, 0, 0]
    ∧ ((List.range 2).foldlM (omp_it 1 1 [0, 0, 0, 0, 10, 0, 0, 0, 0] 4 3 3 1 5)
          { mem := { caller := [0, 0, 0, 0, 1, 0, 0, 0, 0],
                     scratch := [0, 0, 0, 0, 1, 0, 0, 0, 0] },
            u := Block.caller, uold := Block.scratch }).map
          (fun s => (s.uold, s.mem.block s.uold))
        = some (Block.scratch, [0, 0, 0, 0, 4, 0, 0, 0, 0])
    ∧ (sweep 1 1 1 [0, 0, 0, 0, 10, 0, 0, 0, 0])^[2] [0, 0, 0, 0, 1, 0, 0, 0, 0]
        = [0, 0, 0, 0, 4, 0, 0, 0, 0] := by
  refine ⟨?_, ?_, ?_, ?_⟩
  · simp [stencil2d_omp, memcpy, malloc, omp_it, omp_for, omp_row, omp_cell, accumulate,
      ring_step, Mem.load, Mem.store, readCell, writeCell, Mem.block, Mem.setBlock,
      List.range_succ]
    norm_num
  · simp [stencil2d_seq, memcpy, malloc, seq_it, seq_row, seq_cell, accumulate,
      ring_step, Mem.load, Mem.store, readCell, writeCell, Mem.block, Mem.setBlock,
      List.range_succ]
    norm_num
  · simp [omp_it, omp_for, omp_row, omp_cell, accumulate,
      ring_step, Mem.load, Mem.store, readCell, writeCell, Mem.block, Mem.setBlock,
      List.range_succ]
    norm_num
  · simp [sweep, sweep_into, Interior, cell_value, cross_sum, cross_ring, cell, readCell,
      List.range_succ]
    norm_num

/-- C2 (amended). For every iteration count `I`, both drivers succeed and leave in the
caller's block the grid after `I` sweeps when `I` is odd, and after `I - 1` sweeps when
`I` is even (the unchanged grid for `I = 0`); for an even `I >= 2` this is the output of
sweep `I - 2`, not of the last sweep. -/
theorem C2_final_buffer (n m r : Nat) (u coeff : List REAL) (I : Nat)
    (hcl : coeff.length = (2 * r + 1) * (2 * r + 1))
    (hlen : u.length = (n + 2 * r) * (m + 2 * r)) :
    stencil2d_omp n m u r coeff I
        = some ((sweep n m r coeff)^[if I % 2 = 1 then I else I - 1] u)
    ∧ stencil2d_seq n m u r coeff I
        = some ((sweep n m r coeff)^[if I % 2 = 1 then I else I - 1] u) :=
  ⟨stencil2d_omp_eq n m u r coeff I hcl hlen, stencil2d_seq_eq n m u r coeff I hcl hlen⟩

/-- Witness of C2 (amended): three iterations on a single interior cell. -/
theorem C2_final_buffer_witness :
    (([0, 0, 0, 0, 10, 0, 0, 0, 0] : List REAL).length = (2 * 1 + 1) * (2 * 1 + 1)
      ∧ ([0, 0, 0, 0, 1, 0, 0, 0, 0] : List REAL).length = (1 + 2 * 1) * (1 + 2 * 1))
    ∧ stencil2d_omp 1 1 [0, 0, 0, 0, 1, 0, 0, 0, 0] 1 [0, 0, 0, 0, 10, 0, 0, 0, 0] 3
        = some ((sweep 1 1 1 [0, 0, 0, 0, 10, 0, 0, 0, 0])^[3] [0, 0, 0, 0, 1, 0, 0, 0, 0])
    ∧ stencil2d_seq 1 1 [0, 0, 0, 0, 1, 0, 0, 0, 0] 1 [0, 0, 0, 0, 10, 0, 0, 0, 0] 3
        = some ((sweep 1 1 1 [0, 0, 0, 0, 10, 0, 0, 0, 0])^[3] [0, 0, 0, 0, 1, 0, 0, 0, 0]) :=
  ⟨⟨rfl, rfl⟩, C2_final_buffer 1 1 1 [0, 0, 0, 0, 1, 0, 0, 0, 0] [0, 0, 0, 0, 10, 0, 0, 0, 0] 3
    rfl rfl⟩


theorem main_adjust_odd (I : Nat) : main_adjust I % 2 = 1 := by
  unfold main_adjust
  split_ifs <;> omega

theorem caller_sweeps_of_odd (t : Nat) (h : t % 2 = 1) : caller_sweeps t = t := by
  simp [caller_sweeps, h]

theorem caller_sweeps_of_even (t : Nat) (h : t % 2 = 0) : caller_sweeps t = t - 1 := by
  simp [caller_sweeps, h]

/-- C3 (counterexample). The driver does not force the count to be odd: called with
`I = 2` on a single interior cell holding `1` (`n = m = 1`, `r = 1`, kernel with centre
`15`, so that one sweep triples the cell), `stencil2d_omp` leaves `3` in the caller's
block, one sweep, whereas the call with `I + 1 = 3` leaves `27`, three sweeps. -/
theorem C3_parity_counterexample :
    stencil2d_omp 1 1 [0, 0, 0, 0, 1, 0, 0, 0, 0] 1 [0, 0, 0, 0, 15, 0, 0, 0, 0] 2
        = some [0, 0, 0, 0, 3, 0, 0, 0, 0]
    ∧ stencil2d_omp 1 1 [0, 0, 0, 0, 1, 0, 0, 0, 0] 1 [0, 0, 0, 0, 15, 0, 0, 0, 0] 3
        = some [0, 0, 0, 0, 27, 0, 0, 0, 0] := by
  refine ⟨?_, ?_⟩
  · simp [stencil2d_omp, memcpy, malloc, omp_it, omp_for, omp_row, omp_cell, accumulate,
      ring_step, Mem.load, Mem.store, readCell, writeCell, Mem.block, Mem.setBlock,
      List.range_succ]
    norm_num
  · simp [stencil2d_omp, memcpy, malloc, omp_it, omp_for, omp_row, omp_cell, accumulate,
      ring_step, Mem.load, Mem.store, readCell, writeCell, Mem.block, Mem.setBlock,
      List.range_succ]
    norm_num

/-- C3 (amended). The count is forced to be odd by `main` (line 108), not by the driver:
`main_adjust I` is always odd, it is `I + 1` for an even `I` (`3` for `I = 2`), and the
driver called with the adjusted count succeeds and leaves exactly that many sweeps of
the initial grid in the caller's block.  The driver itself, called with an even
`I >= 2`, leaves the same caller buffer as a call with `I - 1`. -/
theorem C3_parity (n m r : Nat) (u coeff : List REAL) (I : Nat)
    (hcl : coeff.length = (2 * r + 1) * (2 * r + 1))
    (hlen : u.length = (n + 2 * r) * (m + 2 * r)) :
    main_adjust I % 2 = 1
    ∧ (I % 2 = 0 → main_adjust I = I + 1)
    ∧ main_adjust 2 = 3
    ∧ stencil2d_omp n m u r coeff (main_adjust I)
        = some ((sweep n m r coeff)^[main_adjust I] u)
    ∧ stencil2d_omp n m u r coeff (main_adjust 2)
        = some (sweep n m r coeff (sweep n m r coeff (sweep n m r coeff u)))
    ∧ (2 ≤ I → I % 2 = 0 →
        stencil2d_omp n m u r coeff I = stencil2d_omp n m u r coeff (I - 1)) := by
  refine ⟨main_adjust_odd I, ?_, rfl, ?_, ?_, ?_⟩
  · intro h
    simp [main_adjust, h]
  · rw [stencil2d_omp_eq n m u r coeff _ hcl hlen,
      caller_sweeps_of_odd _ (main_adjust_odd I)]
  · rw [stencil2d_omp_eq n m u r coeff _ hcl hlen,
      caller_sweeps_of_odd _ (main_adjust_odd 2)]
    rfl
  · intro h2 h0
    rw [stencil2d_omp_eq n m u r coeff _ hcl hlen, stencil2d_omp_eq n m u r coeff _ hcl hlen,
      caller_sweeps_of_even I h0, caller_sweeps_of_odd (I - 1) (by omega)]

/-- Witness of C3 (amended): `I = 2` on a single interior cell. -/
theorem C3_parity_witness :
    (([0, 0, 0, 0, 15, 0, 0, 0, 0] : List REAL).length = (2 * 1 + 1) * (2 * 1 + 1)
      ∧ ([0, 0, 0, 0, 1, 0, 0, 0, 0] : List REAL).length = (1 + 2 * 1) * (1 + 2 * 1))
    ∧ stencil2d_omp 1 1 [0, 0, 0, 0, 1, 0, 0, 0, 0] 1 [0, 0, 0, 0, 15, 0, 0, 0, 0]
        (main_adjust 2)
      = some ((sweep 1 1 1 [0, 0, 0, 0, 15, 0, 0, 0, 0])^[main_adjust 2]
          [0, 0, 0, 0, 1, 0, 0, 0, 0]) :=
  ⟨⟨rfl, rfl⟩, (C3_parity 1 1 1 [0, 0, 0, 0, 1, 0, 0, 0, 0] [0, 0, 0, 0, 15, 0, 0, 0, 0] 2
    rfl rfl).2.2.2.1⟩

/-- C5. With `num_its = 0` both drivers succeed and return the caller's buffer with
every cell unchanged. -/
theorem C5_zero_iterations (n m r : Nat) (u coeff : List REAL)
    (hlen : u.length = (n + 2 * r) * (m + 2 * r)) :
    stencil2d_omp n m u r coeff 0 = some u ∧ stencil2d_seq n m u r coeff 0 = some u := by
  constructor
  · simp [stencil2d_omp, memcpy_malloc u _ hlen]
  · simp [stencil2d_seq, memcpy_malloc u _ hlen]

/-- Witness of C5: a `1 x 1` interior with halo of width `1`. -/
theorem C5_zero_iterations_witness :
    ([1, 2, 3, 4, 5, 6, 7, 8, 9] : List REAL).length = (1 + 2 * 1) * (1 + 2 * 1)
    ∧ stencil2d_omp 1 1 [1, 2, 3, 4, 5, 6, 7, 8, 9] 1 [1, 1, 1, 1, 1, 1, 1, 1, 1] 0
        = some [1, 2, 3, 4, 5, 6, 7, 8, 9]
    ∧ stencil2d_seq 1 1 [1, 2, 3, 4, 5, 6, 7, 8, 9] 1 [1, 1, 1, 1, 1, 1, 1, 1, 1] 0
        = some [1, 2, 3, 4, 5, 6, 7, 8, 9] :=
  ⟨rfl, C5_zero_iterations 1 1 1 [1, 2, 3, 4, 5, 6, 7, 8, 9] [1, 1, 1, 1, 1, 1, 1, 1, 1] rfl⟩


theorem not_interior_of_coords (n m r row col : Nat) (hcol : col < m + 2 * r)
    (h : ¬ (r ≤ row ∧ row < r + n ∧ r ≤ col ∧ col < r + m)) :
    ¬ Interior n m r (row * (m + 2 * r) + col) := by
  have hM : 0 < m + 2 * r := by omega
  have hd : (row * (m + 2 * r) + col) / (m + 2 * r) = row := by
    rw [Nat.add_comm, Nat.add_mul_div_right _ _ hM, Nat.div_eq_of_lt hcol]; omega
  have hm : (row * (m + 2 * r) + col) % (m + 2 * r) = col := by
    rw [Nat.add_comm, Nat.add_mul_mod_self_right, Nat.mod_eq_of_lt hcol]
  simp only [Interior, hd, hm]
  exact h

/-- C4. For every number of iterations both drivers succeed with the same buffer, of the
length of the input, in which every cell whose padded index `(row, col)` lies outside
`[r, r+n) x [r, r+m)` holds the value it had at entry. -/
theorem C4_halo_preservation (n m r : Nat) (u coeff : List REAL) (num_its : Nat)
    (hcl : coeff.length = (2 * r + 1) * (2 * r + 1))
    (hlen : u.length = (n + 2 * r) * (m + 2 * r)) :
    ∃ out, stencil2d_omp n m u r coeff num_its = some out
      ∧ stencil2d_seq n m u r coeff num_its = some out
      ∧ out.length = u.length
      ∧ ∀ row col, row < n + 2 * r → col < m + 2 * r →
          ¬ (r ≤ row ∧ row < r + n ∧ r ≤ col ∧ col < r + m) →
          out[row * (m + 2 * r) + col]? = u[row * (m + 2 * r) + col]? := by
  refine ⟨_, stencil2d_omp_eq n m u r coeff num_its hcl hlen,
    stencil2d_seq_eq n m u r coeff num_its hcl hlen,
    (iterate_sweep_sameHalo n m r coeff u _).1, ?_⟩
  intro row col _ hcol h
  exact (iterate_sweep_sameHalo n m r coeff u _).2 _ (not_interior_of_coords n m r row col hcol h)

/-- Witness of C4: two iterations on a single interior cell with an all-ones kernel. -/
theorem C4_halo_preservation_witness :
    (([1, 1, 1, 1, 1, 1, 1, 1, 1] : List REAL).length = (2 * 1 + 1) * (2 * 1 + 1)
      ∧ ([1, 2, 3, 4, 5, 6, 7, 8, 9] : List REAL).length = (1 + 2 * 1) * (1 + 2 * 1))
    ∧ ∃ out, stencil2d_omp 1 1 [1, 2, 3, 4, 5, 6, 7, 8, 9] 1 [1, 1, 1, 1, 1, 1, 1, 1, 1] 2
          = some out
      ∧ stencil2d_seq 1 1 [1, 2, 3, 4, 5, 6, 7, 8, 9] 1 [1, 1, 1, 1, 1, 1, 1, 1, 1] 2
          = some out
      ∧ out.length = ([1, 2, 3, 4, 5, 6, 7, 8, 9] : List REAL).length
      ∧ ∀ row col, row < 1 + 2 * 1 → col < 1 + 2 * 1 →
          ¬ (1 ≤ row ∧ row < 1 + 1 ∧ 1 ≤ col ∧ col < 1 + 1) →
          out[row * (1 + 2 * 1) + col]? = ([1, 2, 3, 4, 5, 6, 7, 8, 9] : List REAL)[row * (1 + 2 * 1) + col]? :=
  ⟨⟨rfl, rfl⟩, C4_halo_preservation 1 1 1 [1, 2, 3, 4, 5, 6, 7, 8, 9]
    [1, 1, 1, 1, 1, 1, 1, 1, 1] 2 rfl rfl⟩


theorem cell_natCast (X : List REAL) (k : Nat) : cell X (k : Int) = X.getD k 0 := by
  simp [cell, readCell, List.getD_eq_getElem?_getD]

theorem stencil2d_omp_one (n m : Nat) (u : List REAL) (r : Nat) (coeff : List REAL)
    (hcl : coeff.length = (2 * r + 1) * (2 * r + 1))
    (hlen : u.length = (n + 2 * r) * (m + 2 * r)) :
    stencil2d_omp n m u r coeff 1 = some (sweep n m r coeff u) := by
  rw [stencil2d_omp_eq n m u r coeff 1 hcl hlen]
  rfl

theorem getElem?_sweep_interior (n m r : Nat) (coeff X : List REAL)
    (hlen : X.length = (n + 2 * r) * (m + 2 * r)) (i j : Nat) (hi : i < n) (hj : j < m) :
    (sweep n m r coeff X)[(i + r) * (m + 2 * r) + (j + r)]?
      = some (cell_value coeff X m r ((i + r) * (m + 2 * r) + (j + r))) :=
  getElem?_sweep_into_interior n m r coeff X X hlen i j hi hj

/-- A grid whose interior cells already hold the value a sweep would store is a fixed
point of the sweep. -/
theorem sweep_eq_self (n m r : Nat) (coeff X : List REAL)
    (h : ∀ k, k < X.length → Interior n m r k → cell_value coeff X m r k = X.getD k 0) :
    sweep n m r coeff X = X := by
  apply List.ext_getElem?
  intro k
  rw [sweep, getElem?_sweep_into]
  by_cases hk : k < X.length
  · by_cases hin : Interior n m r k
    · simp [hk, hin, h k hk hin, List.getD_eq_getElem?_getD, List.getElem?_eq_getElem hk]
    · simp [hk, hin, List.getD_eq_getElem?_getD, List.getElem?_eq_getElem hk]
  · simp [hk, List.getElem?_eq_none (Nat.le_of_not_lt hk)]

theorem cell_value_identity (m : Nat) (X : List REAL) (k : Nat) :
    cell_value [0, 0, 0, 0, 5, 0, 0, 0, 0] X m 1 k = X.getD k 0 := by
  have h4 : cell [0, 0, 0, 0, 5, 0, 0, 0, 0] 4 = 5 := by simp [cell, readCell]
  have h5 : cell [0, 0, 0, 0, 5, 0, 0, 0, 0] 5 = 0 := by simp [cell, readCell]
  have h3 : cell [0, 0, 0, 0, 5, 0, 0, 0, 0] 3 = 0 := by simp [cell, readCell]
  have h7 : cell [0, 0, 0, 0, 5, 0, 0, 0, 0] 7 = 0 := by simp [cell, readCell]
  have h1 : cell [0, 0, 0, 0, 5, 0, 0, 0, 0] 1 = 0 := by simp [cell, readCell]
  simp only [cell_value, cross_sum, cross_ring, Finset.Icc_self, Finset.sum_singleton]
  norm_num [h4, h5, h3, h7, h1, cell_natCast]

/-- C6. With `r = 1` and the kernel whose centre is `5 = 4r+1` and whose other
coefficients are `0`, for every grid and every iteration count both drivers succeed
and return the input grid itself (so every interior cell equals the input), and every
iterate of the sweep is that same grid. -/
theorem C6_identity_kernel (n m : Nat) (u : List REAL) (I : Nat)
    (hlen : u.length = (n + 2 * 1) * (m + 2 * 1)) :
    stencil2d_omp n m u 1 [0, 0, 0, 0, 5, 0, 0, 0, 0] I = some u
    ∧ stencil2d_seq n m u 1 [0, 0, 0, 0, 5, 0, 0, 0, 0] I = some u
    ∧ ∀ t, (sweep n m 1 [0, 0, 0, 0, 5, 0, 0, 0, 0])^[t] u = u := by
  have hfix : sweep n m 1 [0, 0, 0, 0, 5, 0, 0, 0, 0] u = u :=
    sweep_eq_self n m 1 _ u (fun k _ _ => cell_value_identity m u k)
  have hit : ∀ t, (sweep n m 1 [0, 0, 0, 0, 5, 0, 0, 0, 0])^[t] u = u :=
    fun t => Function.iterate_fixed hfix t
  refine ⟨?_, ?_, hit⟩
  · rw [stencil2d_omp_eq n m u 1 [0, 0, 0, 0, 5, 0, 0, 0, 0] I rfl hlen, hit]
  · rw [stencil2d_seq_eq n m u 1 [0, 0, 0, 0, 5, 0, 0, 0, 0] I rfl hlen, hit]

/-- Witness of C6: a `1 x 2` interior, four iterations. -/
theorem C6_identity_kernel_witness :
    ([1, 2, 3, 4, 5, 6, 7, 8, 9, 10, 11, 12] : List REAL).length = (1 + 2 * 1) * (2 + 2 * 1)
    ∧ stencil2d_omp 1 2 [1, 2, 3, 4, 5, 6, 7, 8, 9, 10, 11, 12] 1 [0, 0, 0, 0, 5, 0, 0, 0, 0] 4
        = some [1, 2, 3, 4, 5, 6, 7, 8, 9, 10, 11, 12] :=
  ⟨rfl, (C6_identity_kernel 1 2 [1, 2, 3, 4, 5, 6, 7, 8, 9, 10, 11, 12] 4 rfl).1⟩


theorem cell_zipWith (a b : REAL) (X Y : List REAL) (hlen : X.length = Y.length) (i : Int) :
    cell (List.zipWith (fun x y => a * x + b * y) X Y) i = a * cell X i + b * cell Y i := by
  by_cases h0 : 0 ≤ i
  · by_cases hlt : i.toNat < X.length
    · have hlt' : i.toNat < Y.length := hlen ▸ hlt
      simp [cell, readCell, h0, List.getElem?_zipWith, List.getElem?_eq_getElem hlt,
        List.getElem?_eq_getElem hlt']
    · have hX : X[i.toNat]? = none := List.getElem?_eq_none (by omega)
      have hY : Y[i.toNat]? = none := List.getElem?_eq_none (by omega)
      simp [cell, readCell, h0, List.getElem?_zipWith, hX, hY]
  · simp [cell, readCell, h0]

theorem cross_sum_zipWith (a b : REAL) (coeff X Y : List REAL) (hlen : X.length = Y.length)
    (c p K M : Int) (r : Nat) :
    cross_sum coeff (List.zipWith (fun x y => a * x + b * y) X Y) c p K M r
      = a * cross_sum coeff X c p K M r + b * cross_sum coeff Y c p K M r := by
  simp only [cross_sum, cross_ring, cell_zipWith a b X Y hlen]
  rw [mul_add a, mul_add b, Finset.mul_sum, Finset.mul_sum]
  have hs : ∑ d in Finset.Icc 1 r,
        (cell coeff (c + d) * (a * cell X (p + d) + b * cell Y (p + d))
          + cell coeff (c - d) * (a * cell X (p - d) + b * cell Y (p - d))
          + cell coeff (c + d * K) * (a * cell X (p + d * M) + b * cell Y (p + d * M))
          + cell coeff (c - d * K) * (a * cell X (p - d * M) + b * cell Y (p - d * M)))
      = ∑ d in Finset.Icc 1 r, a *
          (cell coeff (c + d) * cell X (p + d) + cell coeff (c - d) * cell X (p - d)
            + cell coeff (c + d * K) * cell X (p + d * M)
            + cell coeff (c - d * K) * cell X (p - d * M))
        + ∑ d in Finset.Icc 1 r, b *
          (cell coeff (c + d) * cell Y (p + d) + cell coeff (c - d) * cell Y (p - d)
            + cell coeff (c + d * K) * cell Y (p + d * M)
            + cell coeff (c - d * K) * cell Y (p - d * M)) := by
    rw [← Finset.sum_add_distrib]
    apply Finset.sum_congr rfl
    intro d _
    ring
  rw [hs]
  ring

theorem cell_value_zipWith (a b : REAL) (coeff X Y : List REAL) (hlen : X.length = Y.length)
    (m r k : Nat) :
    cell_value coeff (List.zipWith (fun x y => a * x + b * y) X Y) m r k
      = a * cell_value coeff X m r k + b * cell_value coeff Y m r k := by
  simp only [cell_value, cross_sum_zipWith a b coeff X Y hlen]
  ring

/-- C7. For every radius, kernel, scalars `a`, `b` and grids `X`, `Y` of the same
dimensions, one sweep (the driver with `num_its = 1`) succeeds on `a*X + b*Y`, on `X` and
on `Y`, and on every interior cell the first result is `a` times the second plus `b`
times the third. -/
theorem C7_linearity (n m r : Nat) (coeff X Y : List REAL) (a b : REAL)
    (hcl : coeff.length = (2 * r + 1) * (2 * r + 1))
    (hX : X.length = (n + 2 * r) * (m + 2 * r))
    (hY : Y.length = (n + 2 * r) * (m + 2 * r)) :
    ∃ Z SX SY,
      stencil2d_omp n m (List.zipWith (fun x y => a * x + b * y) X Y) r coeff 1 = some Z
      ∧ stencil2d_omp n m X r coeff 1 = some SX
      ∧ stencil2d_omp n m Y r coeff 1 = some SY
      ∧ ∀ i j, i < n → j < m →
          ∃ z x y, Z[(i + r) * (m + 2 * r) + (j + r)]? = some z
            ∧ SX[(i + r) * (m + 2 * r) + (j + r)]? = some x
            ∧ SY[(i + r) * (m + 2 * r) + (j + r)]? = some y
            ∧ z = a * x + b * y := by
  have hZ : (List.zipWith (fun x y => a * x + b * y) X Y).length = (n + 2 * r) * (m + 2 * r) := by
    simp [hX, hY]
  refine ⟨_, _, _, stencil2d_omp_one n m _ r coeff hcl hZ, stencil2d_omp_one n m X r coeff hcl hX,
    stencil2d_omp_one n m Y r coeff hcl hY, ?_⟩
  intro i j hi hj
  exact ⟨_, _, _, getElem?_sweep_interior n m r coeff _ hZ i j hi hj,
    getElem?_sweep_interior n m r coeff X hX i j hi hj,
    getElem?_sweep_interior n m r coeff Y hY i j hi hj,
    cell_value_zipWith a b coeff X Y (hX.trans hY.symm) m r _⟩

/-- Witness of C7: `2*X + 3*Y` on a single interior cell. -/
theorem C7_linearity_witness :
    (([1, 2, 3, 4, 5, 6, 7, 8, 9] : List REAL).length = (2 * 1 + 1) * (2 * 1 + 1)
      ∧ ([1, 0, 2, 0, 3, 0, 4, 0, 5] : List REAL).length = (1 + 2 * 1) * (1 + 2 * 1)
      ∧ ([0, 1, 0, 1, 0, 1, 0, 1, 0] : List REAL).length = (1 + 2 * 1) * (1 + 2 * 1))
    ∧ ∃ Z SX SY,
      stencil2d_omp 1 1 (List.zipWith (fun x y => 2 * x + 3 * y) [1, 0, 2, 0, 3, 0, 4, 0, 5]
          [0, 1, 0, 1, 0, 1, 0, 1, 0]) 1 [1, 2, 3, 4, 5, 6, 7, 8, 9] 1 = some Z
      ∧ stencil2d_omp 1 1 [1, 0, 2, 0, 3, 0, 4, 0, 5] 1 [1, 2, 3, 4, 5, 6, 7, 8, 9] 1 = some SX
      ∧ stencil2d_omp 1 1 [0, 1, 0, 1, 0, 1, 0, 1, 0] 1 [1, 2, 3, 4, 5, 6, 7, 8, 9] 1 = some SY
      ∧ ∀ i j, i < 1 → j < 1 →
          ∃ z x y, Z[(i + 1) * (1 + 2 * 1) + (j + 1)]? = some z
            ∧ SX[(i + 1) * (1 + 2 * 1) + (j + 1)]? = some x
            ∧ SY[(i + 1) * (1 + 2 * 1) + (j + 1)]? = some y
            ∧ z = 2 * x + 3 * y :=
  ⟨⟨rfl, rfl, rfl⟩, C7_linearity 1 1 1 [1, 2, 3, 4, 5, 6, 7, 8, 9] [1, 0, 2, 0, 3, 0, 4, 0, 5]
    [0, 1, 0, 1, 0, 1, 0, 1, 0] 2 3 rfl rfl rfl⟩

theorem cell_eq_zero_of_all_zero (coeff : List REAL) (h : ∀ c ∈ coeff, c = 0) (i : Int) :
    cell coeff i = 0 := by
  by_cases h0 : 0 ≤ i
  · by_cases hlt : i.toNat < coeff.length
    · simp [cell, readCell, h0, List.getElem?_eq_getElem hlt,
        h _ (List.getElem_mem hlt)]
    · simp [cell, readCell, h0, List.getElem?_eq_none (Nat.le_of_not_lt hlt)]
  · simp [cell, readCell, h0]

/-- C8. If all kernel coefficients are `0` then one sweep (the driver with `num_its = 1`)
succeeds and leaves `0` in every interior cell of the caller's buffer. -/
theorem C8_zero_kernel (n m r : Nat) (u coeff : List REAL)
    (hcl : coeff.length = (2 * r + 1) * (2 * r + 1))
    (hlen : u.length = (n + 2 * r) * (m + 2 * r))
    (hzero : ∀ c ∈ coeff, c = 0) :
    ∃ out, stencil2d_omp n m u r coeff 1 = some out
      ∧ ∀ i j, i < n → j < m → out[(i + r) * (m + 2 * r) + (j + r)]? = some 0 := by
  refine ⟨_, stencil2d_omp_one n m u r coeff hcl hlen, ?_⟩
  intro i j hi hj
  rw [getElem?_sweep_interior n m r coeff u hlen i j hi hj]
  simp [cell_value, cross_sum, cross_ring, cell_eq_zero_of_all_zero coeff hzero]

/-- Witness of C8: the zero kernel of radius `1` on a single interior cell. -/
theorem C8_zero_kernel_witness :
    (([0, 0, 0, 0, 0, 0, 0, 0, 0] : List REAL).length = (2 * 1 + 1) * (2 * 1 + 1)
      ∧ ([1, 2, 3, 4, 5, 6, 7, 8, 9] : List REAL).length = (1 + 2 * 1) * (1 + 2 * 1)
      ∧ ∀ c ∈ ([0, 0, 0, 0, 0, 0, 0, 0, 0] : List REAL), c = 0)
    ∧ ∃ out, stencil2d_omp 1 1 [1, 2, 3, 4, 5, 6, 7, 8, 9] 1 [0, 0, 0, 0, 0, 0, 0, 0, 0] 1
          = some out
      ∧ ∀ i j, i < 1 → j < 1 → out[(i + 1) * (1 + 2 * 1) + (j + 1)]? = some 0 :=
  ⟨⟨rfl, rfl, by simp⟩, C8_zero_kernel 1 1 1 [1, 2, 3, 4, 5, 6, 7, 8, 9]
    [0, 0, 0, 0, 0, 0, 0, 0, 0] rfl rfl (by simp)⟩


theorem cell_replicate (L : Nat) (x : REAL) (i : Int) (h : InBounds (List.replicate L x) i) :
    cell (List.replicate L x) i = x := by
  obtain ⟨h0, h1⟩ := h
  have hlt : i.toNat < L := by simp at h1; omega
  simp [cell, readCell, h0, List.getElem?_replicate, hlt]

theorem cross_sum_replicate (Lc L : Nat) (k : REAL) (c p K M : Int) (r : Nat)
    (hc : CrossInBounds (List.replicate Lc 1) c K r)
    (hp : CrossInBounds (List.replicate L k) p M r) :
    cross_sum (List.replicate Lc 1) (List.replicate L k) c p K M r = (4 * r + 1) * k := by
  have hring : ∀ d ∈ Finset.Icc 1 r,
      cross_ring (List.replicate Lc 1) (List.replicate L k) c p K M d = 4 * k := by
    intro d hd
    obtain ⟨h1, h2⟩ := Finset.mem_Icc.1 hd
    obtain ⟨a1, a2, a3, a4⟩ := hc.2 d h1 h2
    obtain ⟨b1, b2, b3, b4⟩ := hp.2 d h1 h2
    simp only [cross_ring, cell_replicate _ _ _ a1, cell_replicate _ _ _ a2,
      cell_replicate _ _ _ a3, cell_replicate _ _ _ a4, cell_replicate _ _ _ b1,
      cell_replicate _ _ _ b2, cell_replicate _ _ _ b3, cell_replicate _ _ _ b4]
    ring
  rw [cross_sum, Finset.sum_congr rfl hring, cell_replicate _ _ _ hc.1,
    cell_replicate _ _ _ hp.1, Finset.sum_const, Nat.card_Icc]
  simp
  ring

theorem sweep_replicate (n m r : Nat) (k : REAL) :
    sweep n m r (List.replicate ((2 * r + 1) * (2 * r + 1)) 1)
        (List.replicate ((n + 2 * r) * (m + 2 * r)) k)
      = List.replicate ((n + 2 * r) * (m + 2 * r)) k := by
  apply sweep_eq_self
  intro q hq hin
  obtain ⟨ix, hix, iy, hiy, rfl⟩ := (interior_iff n m r q).1 hin
  have hq' : cell_index m r ix iy < (n + 2 * r) * (m + 2 * r) := by simpa using hq
  rw [cell_value, cross_sum_replicate _ _ k _ _ _ _ r
    (coeff_crossInBounds _ r (by simp)) (grid_crossInBounds _ n m r ix iy (by simp) hix hiy)]
  have h41 : ((4 * r + 1 : Nat) : REAL) ≠ 0 := by positivity
  rw [List.getD_eq_getElem?_getD, List.getElem?_replicate, if_pos hq']
  push_cast at h41 ⊢
  field_simp

/-- C10. With the all-ones kernel, for every `n`, `m`, radius `r` and constant `k`, one
sweep (the driver with `num_its = 1`) of the grid whose cells all equal `k` succeeds and
returns that same grid: every interior cell is `(4r+1)*k/(4r+1) = k`.  The instance
`r = 1`, `n = m = 3`, `k = 7` is spelled out. -/
theorem C10_constant_preservation (n m r : Nat) (k : REAL) :
    stencil2d_omp n m (List.replicate ((n + 2 * r) * (m + 2 * r)) k) r
        (List.replicate ((2 * r + 1) * (2 * r + 1)) 1) 1
      = some (List.replicate ((n + 2 * r) * (m + 2 * r)) k)
    ∧ stencil2d_omp 3 3 (List.replicate 25 7) 1 (List.replicate 9 1) 1
      = some (List.replicate 25 7) := by
  have h : ∀ n m r (k : REAL),
      stencil2d_omp n m (List.replicate ((n + 2 * r) * (m + 2 * r)) k) r
          (List.replicate ((2 * r + 1) * (2 * r + 1)) 1) 1
        = some (List.replicate ((n + 2 * r) * (m + 2 * r)) k) := by
    intro n m r k
    rw [stencil2d_omp_one n m _ r _ (by simp) (by simp), sweep_replicate]
  exact ⟨h n m r k, h 3 3 1 7⟩


theorem flat_index_inj (x y x' y' M : Int) (h0 : 0 ≤ y) (h1 : y < M) (h0' : 0 ≤ y')
    (h1' : y' < M) : x * M + y = x' * M + y' ↔ x = x' ∧ y = y' := by
  constructor
  · intro h
    rcases lt_trichotomy x x' with hx | hx | hx
    · have : (x + 1) * M ≤ x' * M := mul_le_mul_of_nonneg_right (by omega) (by omega)
      have e : (x + 1) * M = x * M + M := by ring
      omega
    · subst hx
      exact ⟨rfl, by omega⟩
    · have : (x' + 1) * M ≤ x * M := mul_le_mul_of_nonneg_right (by omega) (by omega)
      have e : (x' + 1) * M = x' * M + M := by ring
      omega
  · rintro ⟨rfl, rfl⟩
    rfl

theorem cell_spike (L s : Nat) (v : REAL) (hs : s < L) (q : Int) :
    cell ((List.replicate L (0 : REAL)).set s v) q = if q = (s : Int) then v else 0 := by
  by_cases h0 : 0 ≤ q
  · by_cases hq : q = (s : Int)
    · subst hq
      simp [cell, readCell, List.getElem?_set, hs]
    · have hne : ¬ s = q.toNat := by omega
      simp only [cell, readCell, h0, if_true, List.getElem?_set, hne, if_false, hq,
        List.getElem?_replicate]
      split_ifs <;> rfl
  · have hq : ¬ q = (s : Int) := by omega
    simp [cell, readCell, h0, hq]

theorem cell_value_spike (n m a b i j : Nat) (v : REAL) (ha : a < n) (hb : b < m) (hj : j < m) :
    cell_value (List.replicate 9 1)
        ((List.replicate ((n + 2 * 1) * (m + 2 * 1)) (0 : REAL)).set
          ((a + 1) * (m + 2 * 1) + (b + 1)) v) m 1 ((i + 1) * (m + 2 * 1) + (j + 1))
      = if |(i : Int) - a| + |(j : Int) - b| ≤ 1 then v / 5 else 0 := by
  have hs : (a + 1) * (m + 2 * 1) + (b + 1) < (n + 2 * 1) * (m + 2 * 1) := by
    have := cell_index_lt n m 1 a b ha hb
    simp only [cell_index] at this
    omega
  have c4 : cell (List.replicate 9 (1 : REAL)) 4 = 1 := by simp [cell, readCell]
  have c5 : cell (List.replicate 9 (1 : REAL)) 5 = 1 := by simp [cell, readCell]
  have c3 : cell (List.replicate 9 (1 : REAL)) 3 = 1 := by simp [cell, readCell]
  have c7 : cell (List.replicate 9 (1 : REAL)) 7 = 1 := by simp [cell, readCell]
  have c1 : cell (List.replicate 9 (1 : REAL)) 1 = 1 := by simp [cell, readCell]
  have hM : (0 : Int) ≤ m := Int.ofNat_nonneg m
  have hj0 : (0 : Int) ≤ j := Int.ofNat_nonneg j
  have hb0 : (0 : Int) ≤ b := Int.ofNat_nonneg b
  have hjm : (j : Int) < m := by exact_mod_cast hj
  have hbm : (b : Int) < m := by exact_mod_cast hb
  have es : (((a + 1) * (m + 2 * 1) + (b + 1) : Nat) : Int)
      = ((a : Int) + 1) * ((m : Int) + 2) + ((b : Int) + 1) := by push_cast; ring
  have ep : (((i + 1) * (m + 2 * 1) + (j + 1) : Nat) : Int)
      = ((i : Int) + 1) * ((m : Int) + 2) + ((j : Int) + 1) := by push_cast; ring
  have e0 : ((i : Int) + 1) * ((m : Int) + 2) + ((j : Int) + 1)
        = ((a : Int) + 1) * ((m : Int) + 2) + ((b : Int) + 1) ↔ (i = a ∧ j = b) := by
    rw [flat_index_inj _ _ _ _ _ (by omega) (by omega) (by omega) (by omega)]; omega
  have e1 : ((i : Int) + 1) * ((m : Int) + 2) + ((j : Int) + 1) + 1
        = ((a : Int) + 1) * ((m : Int) + 2) + ((b : Int) + 1) ↔ (i = a ∧ j + 1 = b) := by
    rw [show ((i : Int) + 1) * ((m : Int) + 2) + ((j : Int) + 1) + 1
        = ((i : Int) + 1) * ((m : Int) + 2) + ((j : Int) + 2) by ring,
      flat_index_inj _ _ _ _ _ (by omega) (by omega) (by omega) (by omega)]; omega
  have e2 : ((i : Int) + 1) * ((m : Int) + 2) + ((j : Int) + 1) - 1
        = ((a : Int) + 1) * ((m : Int) + 2) + ((b : Int) + 1) ↔ (i = a ∧ j = b + 1) := by
    rw [show ((i : Int) + 1) * ((m : Int) + 2) + ((j : Int) + 1) - 1
        = ((i : Int) + 1) * ((m : Int) + 2) + (j : Int) by ring,
      flat_index_inj _ _ _ _ _ (by omega) (by omega) (by omega) (by omega)]; omega
  have e3 : ((i : Int) + 1) * ((m : Int) + 2) + ((j : Int) + 1) + 1 * ((m : Int) + 2)
        = ((a : Int) + 1) * ((m : Int) + 2) + ((b : Int) + 1) ↔ (i + 1 = a ∧ j = b) := by
    rw [show ((i : Int) + 1) * ((m : Int) + 2) + ((j : Int) + 1) + 1 * ((m : Int) + 2)
        = ((i : Int) + 2) * ((m : Int) + 2) + ((j : Int) + 1) by ring,
      flat_index_inj _ _ _ _ _ (by omega) (by omega) (by omega) (by omega)]; omega
  have e4 : ((i : Int) + 1) * ((m : Int) + 2) + ((j : Int) + 1) - 1 * ((m : Int) + 2)
        = ((a : Int) + 1) * ((m : Int) + 2) + ((b : Int) + 1) ↔ (i = a + 1 ∧ j = b) := by
    rw [show ((i : Int) + 1) * ((m : Int) + 2) + ((j : Int) + 1) - 1 * ((m : Int) + 2)
        = (i : Int) * ((m : Int) + 2) + ((j : Int) + 1) by ring,
      flat_index_inj _ _ _ _ _ (by omega) (by omega) (by omega) (by omega)]; omega
  have hc : (|(i : Int) - a| + |(j : Int) - b| ≤ 1) ↔
      ((i = a ∧ j = b) ∨ (i = a ∧ j + 1 = b) ∨ (i = a ∧ j = b + 1) ∨ (i + 1 = a ∧ j = b)
        ∨ (i = a + 1 ∧ j = b)) := by
    rw [Int.abs_eq_natAbs, Int.abs_eq_natAbs]
    omega
  simp only [cell_value, cross_sum, cross_ring, Finset.Icc_self, Finset.sum_singleton,
    cell_spike _ _ v hs]
  simp only [es, ep]
  norm_num only [c4, c5, c3, c7, c1, Nat.cast_one, Nat.cast_ofNat, Nat.cast_add, Nat.cast_mul]
  simp only [e0, e1, e2, e3, e4, hc]
  split_ifs <;> first | (exfalso; omega) | norm_num

/-- C9. With `r = 1`, the all-ones kernel and a grid that is `0` everywhere except the
interior cell `(a, b)` holding `v`, one sweep (the driver with `num_its = 1`) succeeds and
interior cell `(i, j)` then holds `v/5` when `|i-a| + |j-b| <= 1` and `0` otherwise. -/
theorem C9_spike (n m a b : Nat) (v : REAL) (ha : a < n) (hb : b < m) :
    ∃ out, stencil2d_omp n m
          ((List.replicate ((n + 2 * 1) * (m + 2 * 1)) (0 : REAL)).set
            ((a + 1) * (m + 2 * 1) + (b + 1)) v) 1 (List.replicate 9 1) 1 = some out
      ∧ ∀ i j : Nat, i < n → j < m →
          out[(i + 1) * (m + 2 * 1) + (j + 1)]?
            = some (if |(i : Int) - a| + |(j : Int) - b| ≤ 1 then v / 5 else 0) := by
  have hlen : ((List.replicate ((n + 2 * 1) * (m + 2 * 1)) (0 : REAL)).set
      ((a + 1) * (m + 2 * 1) + (b + 1)) v).length = (n + 2 * 1) * (m + 2 * 1) := by simp
  refine ⟨_, stencil2d_omp_one n m _ 1 _ rfl hlen, ?_⟩
  intro i j hi hj
  rw [getElem?_sweep_interior n m 1 _ _ hlen i j hi hj, cell_value_spike n m a b i j v ha hb hj]

set_option maxHeartbeats 4000000 in
/-- Witness of C9: `n = m = 3` and `v = 5` at `(1, 1)`; the interior after the sweep is
`[[0,1,0],[1,1,1],[0,1,0]]`. -/
theorem C9_spike_witness :
    (1 < 3 ∧ 1 < 3)
    ∧ (∃ out, stencil2d_omp 3 3
          ((List.replicate ((3 + 2 * 1) * (3 + 2 * 1)) (0 : REAL)).set
            ((1 + 1) * (3 + 2 * 1) + (1 + 1)) 5) 1 (List.replicate 9 1) 1 = some out
      ∧ ∀ i j : Nat, i < 3 → j < 3 →
          out[(i + 1) * (3 + 2 * 1) + (j + 1)]?
            = some (if |(i : Int) - (1 : Nat)| + |(j : Int) - (1 : Nat)| ≤ 1
                then (5 : REAL) / 5 else 0))
    ∧ stencil2d_omp 3 3
          [0, 0, 0, 0, 0,
           0, 0, 0, 0, 0,
           0, 0, 5, 0, 0,
           0, 0, 0, 0, 0,
           0, 0, 0, 0, 0] 1 (List.replicate 9 1) 1
        = some [0, 0, 0, 0, 0,
                0, 0, 1, 0, 0,
                0, 1, 1, 1, 0,
                0, 0, 1, 0, 0,
                0, 0, 0, 0, 0] := by
  refine ⟨⟨by decide, by decide⟩, C9_spike 3 3 1 1 5 (by decide) (by decide), ?_⟩
  simp [stencil2d_omp, memcpy, malloc, omp_it, omp_for, omp_row, omp_cell, accumulate,
    ring_step, Mem.load, Mem.store, readCell, writeCell, Mem.block, Mem.setBlock,
    List.range_succ]

theorem cell_congr_of_getElem? (a b : List REAL) (k : Nat) (i : Int) (hi : i = (k : Int))
    (h : a[k]? = b[k]?) : cell a i = cell b i := by
  subst hi
  simp [cell, readCell, h]

/-- The value stored by a sweep depends on the kernel only through its centre row and
its centre column. -/
theorem cell_value_congr_kernel (coeff1 coeff2 src : List REAL) (m r k : Nat)
    (hrow : ∀ x, x < 2 * r + 1 →
      coeff1[r * (2 * r + 1) + x]? = coeff2[r * (2 * r + 1) + x]?)
    (hcol : ∀ y, y < 2 * r + 1 →
      coeff1[y * (2 * r + 1) + r]? = coeff2[y * (2 * r + 1) + r]?) :
    cell_value coeff1 src m r k = cell_value coeff2 src m r k := by
  have h0 : cell coeff1 (((2 * r + 1 : Nat) : Int) * r + r)
      = cell coeff2 (((2 * r + 1 : Nat) : Int) * r + r) :=
    cell_congr_of_getElem? _ _ (r * (2 * r + 1) + r) _ (by push_cast; ring)
      (hrow r (by omega))
  have hr : ∀ d ∈ Finset.Icc 1 r,
      cross_ring coeff1 src (((2 * r + 1 : Nat) : Int) * r + r) k ((2 * r + 1 : Nat) : Int)
          ((m + 2 * r : Nat) : Int) d
        = cross_ring coeff2 src (((2 * r + 1 : Nat) : Int) * r + r) k
          ((2 * r + 1 : Nat) : Int) ((m + 2 * r : Nat) : Int) d := by
    intro d hd
    obtain ⟨h1, h2⟩ := Finset.mem_Icc.1 hd
    have e1 := cell_congr_of_getElem? coeff1 coeff2 (r * (2 * r + 1) + (r + d))
      (((2 * r + 1 : Nat) : Int) * r + r + d) (by push_cast; ring) (hrow (r + d) (by omega))
    have e2 := cell_congr_of_getElem? coeff1 coeff2 (r * (2 * r + 1) + (r - d))
      (((2 * r + 1 : Nat) : Int) * r + r - d)
      (by push_cast [Nat.cast_sub h2]; ring) (hrow (r - d) (by omega))
    have e3 := cell_congr_of_getElem? coeff1 coeff2 ((r + d) * (2 * r + 1) + r)
      (((2 * r + 1 : Nat) : Int) * r + r + d * ((2 * r + 1 : Nat) : Int))
      (by push_cast; ring) (hcol (r + d) (by omega))
    have e4 := cell_congr_of_getElem? coeff1 coeff2 ((r - d) * (2 * r + 1) + r)
      (((2 * r + 1 : Nat) : Int) * r + r - d * ((2 * r + 1 : Nat) : Int))
      (by push_cast [Nat.cast_sub h2]; ring)
      (hcol (r - d) (by omega))
    simp only [cross_ring, e1, e2, e3, e4]
  simp only [cell_value, cross_sum, h0, Finset.sum_congr rfl hr]

theorem sweep_congr_kernel (n m r : Nat) (coeff1 coeff2 : List REAL)
    (hrow : ∀ x, x < 2 * r + 1 →
      coeff1[r * (2 * r + 1) + x]? = coeff2[r * (2 * r + 1) + x]?)
    (hcol : ∀ y, y < 2 * r + 1 →
      coeff1[y * (2 * r + 1) + r]? = coeff2[y * (2 * r + 1) + r]?) :
    sweep n m r coeff1 = sweep n m r coeff2 := by
  funext X
  simp only [sweep, sweep_into, cell_value_congr_kernel coeff1 coeff2 X m r _ hrow hcol]

theorem cell_value_diagonal (m : Nat) (X : List REAL) (k : Nat) :
    cell_value [1, 0, 1, 0, 0, 0, 1, 0, 1] X m 1 k = 0 := by
  have h4 : cell [1, 0, 1, 0, 0, 0, 1, 0, 1] 4 = 0 := by simp [cell, readCell]
  have h5 : cell [1, 0, 1, 0, 0, 0, 1, 0, 1] 5 = 0 := by simp [cell, readCell]
  have h3 : cell [1, 0, 1, 0, 0, 0, 1, 0, 1] 3 = 0 := by simp [cell, readCell]
  have h7 : cell [1, 0, 1, 0, 0, 0, 1, 0, 1] 7 = 0 := by simp [cell, readCell]
  have h1 : cell [1, 0, 1, 0, 0, 0, 1, 0, 1] 1 = 0 := by simp [cell, readCell]
  simp only [cell_value, cross_sum, cross_ring, Finset.Icc_self, Finset.sum_singleton]
  norm_num [h4, h5, h3, h7, h1]

/-- C11. Under Cross shape two kernels of `(2r+1)^2` cells that agree on the centre row
and on the centre column give, for every grid and every iteration count, the same result
of `stencil2d_omp` (a success with the same caller buffer); and with `r = 1` and the
kernel that is `1` at the four diagonal positions and `0` elsewhere, one sweep leaves `0`
in every interior cell. -/
theorem C11_cross_excludes_diagonals (n m r : Nat) (u u1 coeff1 coeff2 : List REAL)
    (num_its : Nat)
    (hc1 : coeff1.length = (2 * r + 1) * (2 * r + 1))
    (hc2 : coeff2.length = (2 * r + 1) * (2 * r + 1))
    (hlen : u.length = (n + 2 * r) * (m + 2 * r))
    (hlen1 : u1.length = (n + 2 * 1) * (m + 2 * 1))
    (hrow : ∀ x, x < 2 * r + 1 →
      coeff1[r * (2 * r + 1) + x]? = coeff2[r * (2 * r + 1) + x]?)
    (hcol : ∀ y, y < 2 * r + 1 →
      coeff1[y * (2 * r + 1) + r]? = coeff2[y * (2 * r + 1) + r]?) :
    (∃ out, stencil2d_omp n m u r coeff1 num_its = some out
      ∧ stencil2d_omp n m u r coeff2 num_its = some out)
    ∧ ∃ out, stencil2d_omp n m u1 1 [1, 0, 1, 0, 0, 0, 1, 0, 1] 1 = some out
      ∧ ∀ i j, i < n → j < m → out[(i + 1) * (m + 2 * 1) + (j + 1)]? = some 0 := by
  refine ⟨⟨_, stencil2d_omp_eq n m u r coeff1 num_its hc1 hlen, ?_⟩,
    _, stencil2d_omp_one n m u1 1 _ rfl hlen1, ?_⟩
  · rw [stencil2d_omp_eq n m u r coeff2 num_its hc2 hlen,
      sweep_congr_kernel n m r coeff1 coeff2 hrow hcol]
  · intro i j hi hj
    rw [getElem?_sweep_interior n m 1 _ u1 hlen1 i j hi hj, cell_value_diagonal]

/-- Witness of C11: two kernels of radius `1` that differ only at the four corners. -/
theorem C11_cross_excludes_diagonals_witness :
    (([1, 2, 3, 4, 5, 6, 7, 8, 9] : List REAL).length = (2 * 1 + 1) * (2 * 1 + 1)
      ∧ ([0, 2, 0, 4, 5, 6, 0, 8, 0] : List REAL).length = (2 * 1 + 1) * (2 * 1 + 1)
      ∧ ([1, 2, 3, 4, 5, 6, 7, 8, 9] : List REAL).length = (1 + 2 * 1) * (1 + 2 * 1))
    ∧ (∃ out, stencil2d_omp 1 1 [1, 2, 3, 4, 5, 6, 7, 8, 9] 1 [1, 2, 3, 4, 5, 6, 7, 8, 9] 3
          = some out
        ∧ stencil2d_omp 1 1 [1, 2, 3, 4, 5, 6, 7, 8, 9] 1 [0, 2, 0, 4, 5, 6, 0, 8, 0] 3
          = some out)
    ∧ ∃ out, stencil2d_omp 1 1 [1, 2, 3, 4, 5, 6, 7, 8, 9] 1 [1, 0, 1, 0, 0, 0, 1, 0, 1] 1
          = some out
      ∧ ∀ i j, i < 1 → j < 1 → out[(i + 1) * (1 + 2 * 1) + (j + 1)]? = some 0 :=
  ⟨⟨rfl, rfl, rfl⟩, C11_cross_excludes_diagonals 1 1 1 [1, 2, 3, 4, 5, 6, 7, 8, 9]
    [1, 2, 3, 4, 5, 6, 7, 8, 9] [1, 2, 3, 4, 5, 6, 7, 8, 9] [0, 2, 0, 4, 5, 6, 0, 8, 0] 3
    rfl rfl rfl rfl (by decide) (by decide)⟩

/-- C12 (failing input). `SQUARE_STENCIL` build, `r = 2`, a single interior cell
(`n = m = 1`), the `5 x 5` grid and the `5 x 5` kernel all ones.  The cell update reads
the centre and, for `d = 1, 2`, the four axis cells and the four corner cells at distance
`d`: `17` products, so it stores `17/25`; the full block of the specification has
`25` products and gives `25/25 = 1`. -/
theorem C12_square_block_failing_input :
    square_seq_cell 0 Block.caller Block.scratch (List.replicate 25 1) 12 5 5 2 25
        { caller := List.replicate 25 1, scratch := List.replicate 25 1 } 0
      = some { caller := (List.replicate 25 1).set 12 (17 / 25),
               scratch := List.replicate 25 1 }
    ∧ square_sum (List.replicate 25 1) (List.replicate 25 1) 12 12 5 5 2 / 25 = 1 := by
  refine ⟨?_, ?_⟩
  · simp [square_seq_cell, square_accumulate, square_ring_step, corner_step, ring_step,
      Mem.load, Mem.store, readCell, writeCell, Mem.block, Mem.setBlock, List.range']
    norm_num
  · simp [square_sum, Finset.sum_range_succ, cell, readCell]
    norm_num

theorem accdiff_cell_eq (output reference : List REAL) (dimx dimy radius : Nat)
    (tolerance : REAL) (k l : Nat) (acc : REAL)
    (hout : output.length = (dimx + 2 * radius) * (dimy + 2 * radius))
    (href : reference.length = (dimx + 2 * radius) * (dimy + 2 * radius))
    (hk : k < dimx + 2 * radius) (hl : l < dimy + 2 * radius) :
    accdiff_cell output reference dimx dimy tolerance ((k : Int) - radius)
        { acc_diff := acc, output := ((k * (dimy + 2 * radius) + l : Nat) : Int),
          reference := ((k * (dimy + 2 * radius) + l : Nat) : Int) } ((l : Int) - radius)
      = some { acc_diff := acc + accdiff_term output reference dimx dimy radius k l,
               output := ((k * (dimy + 2 * radius) + (l + 1) : Nat) : Int),
               reference := ((k * (dimy + 2 * radius) + (l + 1) : Nat) : Int) } := by
  have hlt : k * (dimy + 2 * radius) + l < (dimx + 2 * radius) * (dimy + 2 * radius) := by
    have h : (k + 1) * (dimy + 2 * radius) ≤ (dimx + 2 * radius) * (dimy + 2 * radius) :=
      Nat.mul_le_mul_right _ (by omega)
    have e : (k + 1) * (dimy + 2 * radius)
        = k * (dimy + 2 * radius) + (dimy + 2 * radius) := by ring
    omega
  have hbo : InBounds output ((k * (dimy + 2 * radius) + l : Nat) : Int) :=
    ⟨Int.ofNat_nonneg _, by rw [hout]; exact_mod_cast hlt⟩
  have hbr : InBounds reference ((k * (dimy + 2 * radius) + l : Nat) : Int) :=
    ⟨Int.ofNat_nonneg _, by rw [href]; exact_mod_cast hlt⟩
  have hg : ((k : Int) - radius ≥ 0 ∧ (k : Int) - radius < dimx ∧ (l : Int) - radius ≥ 0
        ∧ (l : Int) - radius < dimy)
      ↔ (radius ≤ k ∧ k < radius + dimx ∧ radius ≤ l ∧ l < radius + dimy) := by omega
  have e1 : ((k * (dimy + 2 * radius) + l : Nat) : Int) + 1
      = ((k * (dimy + 2 * radius) + (l + 1) : Nat) : Int) := by push_cast; ring
  simp only [accdiff_cell, accdiff_term, hg, readCell_of_inBounds hbo,
    readCell_of_inBounds hbr, e1]
  by_cases h : radius ≤ k ∧ k < radius + dimx ∧ radius ≤ l ∧ l < radius + dimy
  · simp only [if_pos h]
    rfl
  · simp only [if_neg h, add_zero]
    rfl

theorem accdiff_row_eq (output reference : List REAL) (dimx dimy radius : Nat)
    (tolerance : REAL) (k : Nat) (acc : REAL)
    (hout : output.length = (dimx + 2 * radius) * (dimy + 2 * radius))
    (href : reference.length = (dimx + 2 * radius) * (dimy + 2 * radius))
    (hk : k < dimx + 2 * radius) (t : Nat) (ht : t ≤ dimy + 2 * radius) :
    ((List.range t).map fun l : Nat => (l : Int) - radius).foldlM
        (accdiff_cell output reference dimx dimy tolerance ((k : Int) - radius))
        { acc_diff := acc, output := ((k * (dimy + 2 * radius) + 0 : Nat) : Int),
          reference := ((k * (dimy + 2 * radius) + 0 : Nat) : Int) }
      = some { acc_diff := acc
                 + ∑ l in Finset.range t, accdiff_term output reference dimx dimy radius k l,
               output := ((k * (dimy + 2 * radius) + t : Nat) : Int),
               reference := ((k * (dimy + 2 * radius) + t : Nat) : Int) } := by
  induction t with
  | zero => simp
  | succ t ih =>
    rw [List.range_succ, List.map_append, List.foldlM_append, ih (by omega)]
    simp only [List.map_cons, List.map_nil, List.foldlM_cons, List.foldlM_nil, bind_pure,
      Option.bind_eq_bind, Option.some_bind]
    rw [accdiff_cell_eq output reference dimx dimy radius tolerance k t _ hout href hk
      (by omega), Finset.sum_range_succ, add_assoc]

theorem accdiff_rows_eq (output reference : List REAL) (dimx dimy radius : Nat)
    (tolerance : REAL)
    (hout : output.length = (dimx + 2 * radius) * (dimy + 2 * radius))
    (href : reference.length = (dimx + 2 * radius) * (dimy + 2 * radius))
    (t : Nat) (ht : t ≤ dimx + 2 * radius) :
    ((List.range t).map fun k : Nat => (k : Int) - radius).foldlM
        (fun s ix =>
          ((List.range (dimy + 2 * radius)).map fun l : Nat => (l : Int) - radius).foldlM
            (accdiff_cell output reference dimx dimy tolerance ix) s)
        { acc_diff := 0, output := 0, reference := 0 }
      = some { acc_diff := ∑ k in Finset.range t, ∑ l in Finset.range (dimy + 2 * radius),
                 accdiff_term output reference dimx dimy radius k l,
               output := ((t * (dimy + 2 * radius) : Nat) : Int),
               reference := ((t * (dimy + 2 * radius) : Nat) : Int) } := by
  induction t with
  | zero => simp
  | succ t ih =>
    rw [List.range_succ, List.map_append, List.foldlM_append, ih (by omega)]
    simp only [List.map_cons, List.map_nil, List.foldlM_cons, List.foldlM_nil, bind_pure,
      Option.bind_eq_bind, Option.some_bind]
    have h := accdiff_row_eq output reference dimx dimy radius tolerance t
      (∑ k in Finset.range t, ∑ l in Finset.range (dimy + 2 * radius),
        accdiff_term output reference dimx dimy radius k l) hout href (by omega)
      (dimy + 2 * radius) (le_refl _)
    rw [Nat.add_zero] at h
    rw [h, Finset.sum_range_succ]
    have e : t * (dimy + 2 * radius) + (dimy + 2 * radius) = (t + 1) * (dimy + 2 * radius) := by
      ring
    rw [e]

theorem sum_range_window (a n : Nat) (f : Nat → REAL) :
    ∑ k in Finset.range (n + 2 * a), (if a ≤ k ∧ k < a + n then f k else 0)
      = ∑ i in Finset.range n, f (i + a) := by
  rw [← Finset.sum_filter]
  have hf : (Finset.range (n + 2 * a)).filter (fun k => a ≤ k ∧ k < a + n)
      = Finset.Ico a (a + n) := by
    ext k
    simp only [Finset.mem_filter, Finset.mem_range, Finset.mem_Ico]
    omega
  rw [hf, Finset.sum_Ico_eq_sum_range]
  simp only [Nat.add_sub_cancel_left]
  exact Finset.sum_congr rfl (fun i _ => by rw [Nat.add_comm])

theorem accdiff_sum_interior (output reference : List REAL) (dimx dimy radius : Nat) :
    ∑ k in Finset.range (dimx + 2 * radius), ∑ l in Finset.range (dimy + 2 * radius),
        accdiff_term output reference dimx dimy radius k l
      = ∑ i in Finset.range dimx, ∑ j in Finset.range dimy,
          |cell reference (((i + radius) * (dimy + 2 * radius) + (j + radius) : Nat) : Int)
            - cell output (((i + radius) * (dimy + 2 * radius) + (j + radius) : Nat) : Int)| := by
  have h1 : ∀ k, ∑ l in Finset.range (dimy + 2 * radius),
        accdiff_term output reference dimx dimy radius k l
      = if radius ≤ k ∧ k < radius + dimx then
          ∑ j in Finset.range dimy,
            |cell reference ((k * (dimy + 2 * radius) + (j + radius) : Nat) : Int)
              - cell output ((k * (dimy + 2 * radius) + (j + radius) : Nat) : Int)|
        else 0 := by
    intro k
    by_cases hk : radius ≤ k ∧ k < radius + dimx
    · rw [if_pos hk, ← sum_range_window radius dimy (fun l =>
        |cell reference ((k * (dimy + 2 * radius) + l : Nat) : Int)
          - cell output ((k * (dimy + 2 * radius) + l : Nat) : Int)|)]
      apply Finset.sum_congr rfl
      intro l _
      simp only [accdiff_term]
      by_cases hl : radius ≤ l ∧ l < radius + dimy
      · rw [if_pos ⟨hk.1, hk.2, hl.1, hl.2⟩, if_pos hl]
      · rw [if_neg (fun h => hl ⟨h.2.2.1, h.2.2.2⟩), if_neg hl]
    · rw [if_neg hk]
      apply Finset.sum_eq_zero
      intro l _
      simp only [accdiff_term]
      rw [if_neg (fun h => hk ⟨h.1, h.2.1⟩)]
  simp only [h1]
  exact sum_range_window radius dimx (fun k => ∑ j in Finset.range dimy,
    |cell reference ((k * (dimy + 2 * radius) + (j + radius) : Nat) : Int)
      - cell output ((k * (dimy + 2 * radius) + (j + radius) : Nat) : Int)|)

/-- The function `check_accdiff` succeeds on two padded buffers of the stated size and
returns the sum of the absolute differences over the interior cells. -/
theorem check_accdiff_eq (output reference : List REAL) (dimx dimy radius : Nat)
    (tolerance : REAL)
    (hout : output.length = (dimx + 2 * radius) * (dimy + 2 * radius))
    (href : reference.length = (dimx + 2 * radius) * (dimy + 2 * radius)) :
    check_accdiff output reference dimx dimy radius tolerance
      = some (∑ i in Finset.range dimx, ∑ j in Finset.range dimy,
          |cell reference (((i + radius) * (dimy + 2 * radius) + (j + radius) : Nat) : Int)
            - cell output (((i + radius) * (dimy + 2 * radius) + (j + radius) : Nat) : Int)|) := by
  rw [check_accdiff, accdiff_rows_eq output reference dimx dimy radius tolerance hout href _
    (le_refl _), accdiff_sum_interior]
  rfl

/-- C14 (counterexample). `dimx = dimy = 1`, `radius = 1`, `output` nine zeros and
`reference` nine ones: the sum of `|reference[k] - output[k]|` over all nine cells of the
padded buffers is `9`, but `check_accdiff` returns `1`, the difference at the one
interior cell. -/
theorem C14_accdiff_counterexample :
    check_accdiff [0, 0, 0, 0, 0, 0, 0, 0, 0] [1, 1, 1, 1, 1, 1, 1, 1, 1] 1 1 1 (1 / 100000)
        = some 1
    ∧ (List.zipWith (fun o r : REAL => |r - o|) [0, 0, 0, 0, 0, 0, 0, 0, 0]
        [1, 1, 1, 1, 1, 1, 1, 1, 1]).sum = 9 := by
  refine ⟨?_, ?_⟩
  · simp [check_accdiff, accdiff_cell, readCell, List.range_succ]
  · norm_num

/-- C14 (amended). For every `dimx`, `dimy`, `radius`, tolerance and two padded buffers of
`(dimx+2*radius) x (dimy+2*radius)` cells, `check_accdiff` succeeds and returns the sum
of `|reference[k] - output[k]|` over the interior cells only, those at row `i + radius`
and column `j + radius` with `i < dimx` and `j < dimy`; halo cells are skipped by the
guard of line 48. -/
theorem C14_accdiff (output reference : List REAL) (dimx dimy radius : Nat)
    (tolerance : REAL)
    (hout : output.length = (dimx + 2 * radius) * (dimy + 2 * radius))
    (href : reference.length = (dimx + 2 * radius) * (dimy + 2 * radius)) :
    check_accdiff output reference dimx dimy radius tolerance
      = some (∑ i in Finset.range dimx, ∑ j in Finset.range dimy,
          |cell reference (((i + radius) * (dimy + 2 * radius) + (j + radius) : Nat) : Int)
            - cell output (((i + radius) * (dimy + 2 * radius) + (j + radius) : Nat) : Int)|) :=
  check_accdiff_eq output reference dimx dimy radius tolerance hout href

/-- Witness of C14 (amended): a `1 x 2` interior with halo of width `1`. -/
theorem C14_accdiff_witness :
    (([1, 2, 3, 4, 5, 6, 7, 8, 9, 10, 11, 12] : List REAL).length = (1 + 2 * 1) * (2 + 2 * 1)
      ∧ ([0, 0, 0, 0, 0, 9, 4, 0, 0, 0, 0, 0] : List REAL).length = (1 + 2 * 1) * (2 + 2 * 1))
    ∧ check_accdiff [1, 2, 3, 4, 5, 6, 7, 8, 9, 10, 11, 12] [0, 0, 0, 0, 0, 9, 4, 0, 0, 0, 0, 0]
        1 2 1 (1 / 100000)
      = some (∑ i in Finset.range 1, ∑ j in Finset.range 2,
          |cell [0, 0, 0, 0, 0, 9, 4, 0, 0, 0, 0, 0]
              (((i + 1) * (2 + 2 * 1) + (j + 1) : Nat) : Int)
            - cell [1, 2, 3, 4, 5, 6, 7, 8, 9, 10, 11, 12]
              (((i + 1) * (2 + 2 * 1) + (j + 1) : Nat) : Int)|) :=
  ⟨⟨rfl, rfl⟩, C14_accdiff [1, 2, 3, 4, 5, 6, 7, 8, 9, 10, 11, 12]
    [0, 0, 0, 0, 0, 9, 4, 0, 0, 0, 0, 0] 1 2 1 (1 / 100000) rfl rfl⟩

/-- C15 (counterexample). Three-word command line (`argc = 3`) whose first argument is
non-numeric (`atoi` yields `0`) and whose second is `-2`: `main` configures team size `0`
and radius `-2`, not the defaults `1` and `3`. -/
theorem C15_invalid_args_counterexample :
    main_args 3 (fun k => if k = 1 then 0 else -2)
      = { num_threads := 0, radius := -2, omp_set_num_threads := some 0 } := by
  decide

/-- C15 (amended). `main` does not validate its arguments.  With `argc = 2` the team size
is the integer `atoi` yields for `argv[1]`, whatever it is, and the radius keeps its
default `3`; with `argc = 3` the team size is `atoi(argv[1])` and the radius is
`atoi(argv[2])`, whatever they are; for any other `argc` no argument is read and both
keep their defaults `1` and `3`. -/
theorem C15_invalid_args (argc : Nat) (atoi_argv : Nat → Int) :
    (argc = 2 → (main_args argc atoi_argv).num_threads = atoi_argv 1
      ∧ (main_args argc atoi_argv).radius = 3)
    ∧ (argc = 3 → (main_args argc atoi_argv).num_threads = atoi_argv 1
      ∧ (main_args argc atoi_argv).radius = atoi_argv 2)
    ∧ (argc ≠ 2 → argc ≠ 3 → (main_args argc atoi_argv).num_threads = 1
      ∧ (main_args argc atoi_argv).radius = 3) := by
  refine ⟨?_, ?_, ?_⟩
  · rintro rfl
    exact ⟨rfl, rfl⟩
  · rintro rfl
    exact ⟨rfl, rfl⟩
  · intro h2 h3
    simp [main_args, h2, h3]

/-- Witness of C15 (amended): `argc = 2` with a non-numeric argument. -/
theorem C15_invalid_args_witness :
    (2 = 2)
    ∧ (main_args 2 (fun _ => 0)).num_threads = 0 ∧ (main_args 2 (fun _ => 0)).radius = 3 :=
  ⟨rfl, (C15_invalid_args 2 (fun _ => 0)).1 rfl⟩

/-- C16 (counterexample). The arguments `4` and `2` followed by one more (`argc = 4`):
`main` keeps team size `1` and radius `3` and never calls `omp_set_num_threads`, whereas
with those two arguments alone (`argc = 3`) it configures team size `4` and radius `2`. -/
theorem C16_extra_args_counterexample :
    main_args 4 (fun k => if k = 1 then 4 else 2)
        = { num_threads := 1, radius := 3, omp_set_num_threads := none }
    ∧ main_args 3 (fun k => if k = 1 then 4 else 2)
        = { num_threads := 4, radius := 2, omp_set_num_threads := some 4 } := by
  decide

/-- C16 (amended). With more than two arguments (`argc >= 4`) `main` reads no argument at
all: whatever the arguments are, the first two included, team size and radius keep their
defaults `1` and `3` and `omp_set_num_threads` is not called. -/
theorem C16_extra_args (argc : Nat) (atoi_argv : Nat → Int) (h : 4 ≤ argc) :
    main_args argc atoi_argv
      = { num_threads := 1, radius := 3, omp_set_num_threads := none } := by
  have h2 : argc ≠ 2 := by omega
  have h3 : argc ≠ 3 := by omega
  simp [main_args, h2, h3]

/-- Witness of C16 (amended): five words on the command line. -/
theorem C16_extra_args_witness :
    4 ≤ 5
    ∧ main_args 5 (fun k => (k : Int) + 6)
      = { num_threads := 1, radius := 3, omp_set_num_threads := none } :=
  ⟨by decide, C16_extra_args 5 (fun k => (k : Int) + 6) (by decide)⟩

theorem it_state_ne (n m r : Nat) (coeff U0 : List REAL) (t : Nat) :
    (it_state n m r coeff U0 t).u ≠ (it_state n m r coeff U0 t).uold := by
  rcases Nat.mod_two_eq_zero_or_one t with h | h
  · rw [it_state_even n m r coeff U0 t h]; simp
  · rw [it_state_odd n m r coeff U0 t h]; simp

theorem it_state_length (n m r : Nat) (coeff U0 : List REAL)
    (hlen : U0.length = (n + 2 * r) * (m + 2 * r)) (t : Nat) (b : Block) :
    ((it_state n m r coeff U0 t).mem.block b).length = (n + 2 * r) * (m + 2 * r) := by
  cases b
  · exact (iterate_sweep_sameHalo n m r coeff U0 _).1.trans hlen
  · exact (iterate_sweep_sameHalo n m r coeff U0 _).1.trans hlen

/-- From a state whose two pointers name different blocks of the right size, an
iteration with the rows in any order covering `0 .. n-1` does what the iteration with
the rows in ascending order does. -/
theorem omp_it_sched_eq (n m r : Nat) (rows : List Nat) (hrows : ∀ ix, ix ∈ rows ↔ ix < n)
    (coeff : List REAL) (s : ItState) (t : Nat) (hne : s.u ≠ s.uold)
    (hcl : coeff.length = (2 * r + 1) * (2 * r + 1))
    (hsrc : (s.mem.block s.uold).length = (n + 2 * r) * (m + 2 * r))
    (hdst : (s.mem.block s.u).length = (n + 2 * r) * (m + 2 * r)) :
    omp_it_sched rows m coeff (((2 * r + 1 : Nat) : Int) * r + r) ((2 * r + 1 : Nat) : Int)
        ((m + 2 * r : Nat) : Int) r (4 * r + 1) s t
      = omp_it n m coeff (((2 * r + 1 : Nat) : Int) * r + r) ((2 * r + 1 : Nat) : Int)
        ((m + 2 * r : Nat) : Int) r (4 * r + 1) s t := by
  simp only [omp_it_sched, omp_it,
    omp_for_eq n m r rows hrows s.u s.uold hne coeff s.mem hcl hsrc hdst,
    omp_for_eq n m r (List.range n) (fun ix => List.mem_range) s.u s.uold hne coeff s.mem hcl
      hsrc hdst]

theorem it_loop_sched_eq (n m r : Nat) (sched : Nat → List Nat)
    (hsched : ∀ t ix, ix ∈ sched t ↔ ix < n) (coeff U0 : List REAL)
    (hcl : coeff.length = (2 * r + 1) * (2 * r + 1))
    (hlen : U0.length = (n + 2 * r) * (m + 2 * r)) (t : Nat) :
    (List.range t).foldlM
        (fun s it => omp_it_sched (sched it) m coeff (((2 * r + 1 : Nat) : Int) * r + r)
          ((2 * r + 1 : Nat) : Int) ((m + 2 * r : Nat) : Int) r (4 * r + 1) s it)
        (it_state n m r coeff U0 0)
      = some (it_state n m r coeff U0 t) := by
  induction t with
  | zero => rfl
  | succ t ih =>
    rw [List.range_succ, List.foldlM_append, ih]
    simp only [List.foldlM_cons, List.foldlM_nil, bind_pure, Option.bind_eq_bind,
      Option.some_bind]
    rw [omp_it_sched_eq n m r (sched t) (hsched t) coeff _ t (it_state_ne n m r coeff U0 t) hcl
      (it_state_length n m r coeff U0 hlen t _) (it_state_length n m r coeff U0 hlen t _)]
    exact omp_it_it_state n m r coeff U0 hcl hlen t

theorem stencil2d_omp_sched_eq (n m r : Nat) (sched : Nat → List Nat)
    (hsched : ∀ t ix, ix ∈ sched t ↔ ix < n) (u coeff : List REAL) (num_its : Nat)
    (hcl : coeff.length = (2 * r + 1) * (2 * r + 1))
    (hlen : u.length = (n + 2 * r) * (m + 2 * r)) :
    stencil2d_omp_sched sched n m u r coeff num_its
      = some ((sweep n m r coeff)^[caller_sweeps num_its] u) := by
  have e : ((2 : Int) * r + 1) * r + r = ((2 * r + 1 : Nat) : Int) * r + r := by push_cast; ring
  have h := it_loop_sched_eq n m r sched hsched coeff u hcl hlen num_its
  have h0 : it_state n m r coeff u 0
      = { mem := { caller := u, scratch := u }, u := Block.caller, uold := Block.scratch } := rfl
  rw [h0] at h
  simp only [stencil2d_omp_sched, memcpy_malloc u _ hlen, e, Option.some_bind, bind,
    Option.bind, h]
  rfl

/-- C17. Within a sweep the row order is irrelevant: from any state whose pointers name
two different blocks of the right size, the work-shared loop with its rows in any
permutation of `0 .. n-1` leaves the same memory as with the rows in ascending order.
Hence, whatever permutation `sched it` each sweep `it` uses, `stencil2d_omp` succeeds and
leaves the caller's buffer equal, cell for cell, to what `stencil2d_seq` leaves. -/
theorem C17_order_irrelevant (n m r : Nat) (sched : Nat → List Nat) (u coeff : List REAL)
    (num_its : Nat)
    (hsched : ∀ t, (sched t).Perm (List.range n))
    (hcl : coeff.length = (2 * r + 1) * (2 * r + 1))
    (hlen : u.length = (n + 2 * r) * (m + 2 * r)) :
    (∀ (rows : List Nat) (μ : Mem) (p q : Block), rows.Perm (List.range n) → p ≠ q →
        (μ.block p).length = (n + 2 * r) * (m + 2 * r) →
        (μ.block q).length = (n + 2 * r) * (m + 2 * r) →
        omp_for rows m p q coeff ((2 * r + 1) * r + r) (2 * r + 1 : Nat) (m + 2 * r : Nat) r
            (4 * r + 1) μ
          = omp_for (List.range n) m p q coeff ((2 * r + 1) * r + r) (2 * r + 1 : Nat)
            (m + 2 * r : Nat) r (4 * r + 1) μ)
    ∧ (∃ out, stencil2d_omp_sched sched n m u r coeff num_its = some out
      ∧ stencil2d_seq n m u r coeff num_its = some out)
    ∧ stencil2d_omp_sched (fun _ => List.range n) n m u r coeff num_its
      = stencil2d_omp n m u r coeff num_its := by
  have e : ((2 : Int) * r + 1) * r + r = ((2 * r + 1 : Nat) : Int) * r + r := by push_cast; ring
  refine ⟨?_, ⟨_, stencil2d_omp_sched_eq n m r sched
    (fun t ix => by rw [(hsched t).mem_iff, List.mem_range]) u coeff num_its hcl hlen,
    stencil2d_seq_eq n m u r coeff num_its hcl hlen⟩, rfl⟩
  intro rows μ p q hrows hne hp hq
  rw [e, omp_for_eq n m r rows (fun ix => by rw [hrows.mem_iff, List.mem_range]) p q hne coeff μ
      hcl hq hp,
    omp_for_eq n m r (List.range n) (fun ix => List.mem_range) p q hne coeff μ hcl hq hp]

/-- Witness of C17: two rows, handled in descending order in every sweep, three sweeps. -/
theorem C17_order_irrelevant_witness :
    (([1, 0] : List Nat).Perm (List.range 2)
      ∧ ([1, 2, 3, 4, 5, 6, 7, 8, 9] : List REAL).length = (2 * 1 + 1) * (2 * 1 + 1)
      ∧ ([1, 2, 3, 4, 5, 6, 7, 8, 9, 10, 11, 12] : List REAL).length
          = (2 + 2 * 1) * (1 + 2 * 1))
    ∧ ∃ out, stencil2d_omp_sched (fun _ => [1, 0]) 2 1 [1, 2, 3, 4, 5, 6, 7, 8, 9, 10, 11, 12] 1
          [1, 2, 3, 4, 5, 6, 7, 8, 9] 3 = some out
      ∧ stencil2d_seq 2 1 [1, 2, 3, 4, 5, 6, 7, 8, 9, 10, 11, 12] 1
          [1, 2, 3, 4, 5, 6, 7, 8, 9] 3 = some out :=
  ⟨⟨by decide, rfl, rfl⟩,
    (C17_order_irrelevant 2 1 1 (fun _ => [1, 0]) [1, 2, 3, 4, 5, 6, 7, 8, 9, 10, 11, 12]
      [1, 2, 3, 4, 5, 6, 7, 8, 9] 3
      (fun _ => (by decide : ([1, 0] : List Nat).Perm (List.range 2))) rfl rfl).2.1⟩

theorem omp_it_eq (n m r : Nat) (coeff : List REAL) (s : ItState) (t : Nat)
    (hne : s.u ≠ s.uold)
    (hcl : coeff.length = (2 * r + 1) * (2 * r + 1))
    (hsrc : (s.mem.block s.uold).length = (n + 2 * r) * (m + 2 * r))
    (hdst : (s.mem.block s.u).length = (n + 2 * r) * (m + 2 * r)) :
    omp_it n m coeff (((2 * r + 1 : Nat) : Int) * r + r) ((2 * r + 1 : Nat) : Int)
        ((m + 2 * r : Nat) : Int) r (4 * r + 1) s t
      = some { mem := s.mem.setBlock s.u
                 (sweep_into n m r coeff (s.mem.block s.uold) (s.mem.block s.u)),
               uold := s.u, u := s.uold } := by
  simp only [omp_it,
    omp_for_eq n m r (List.range n) (fun ix => List.mem_range) s.u s.uold hne coeff s.mem hcl
      hsrc hdst, Option.some_bind, bind, Option.bind, pure]

/-- C18. With buffers of exactly `(n+2r)*(m+2r)` cells and a kernel of exactly `(2r+1)^2`
cells: for every interior cell `(ix, iy)` the kernel indices `c`, `c +- d`, `c +- d*K` and
the buffer indices `p`, `p +- d`, `p +- d*M` (`1 <= d <= r`, `c` the kernel centre, `p`
the cell) lie within bounds; every sweep started with two distinct blocks of that size
succeeds, that is, no checked access fails, and leaves two distinct blocks of that size
for the next sweep; and `stencil2d_omp` succeeds for every iteration count. -/
theorem C18_index_safety (n m r : Nat) (coeff u : List REAL)
    (hcl : coeff.length = (2 * r + 1) * (2 * r + 1))
    (hlen : u.length = (n + 2 * r) * (m + 2 * r)) :
    (∀ (buf : List REAL) (ix iy : Nat), buf.length = (n + 2 * r) * (m + 2 * r) →
        ix < n → iy < m →
        CrossInBounds coeff ((2 * r + 1) * r + r) (2 * r + 1) r
        ∧ CrossInBounds buf ((ix + r) * (m + 2 * r) + r + iy) (m + 2 * r) r)
    ∧ (∀ (s : ItState) (t : Nat), s.u ≠ s.uold →
        (s.mem.block s.uold).length = (n + 2 * r) * (m + 2 * r) →
        (s.mem.block s.u).length = (n + 2 * r) * (m + 2 * r) →
        ∃ s', omp_it n m coeff ((2 * r + 1) * r + r) (2 * r + 1 : Nat) (m + 2 * r : Nat) r
              (4 * r + 1) s t = some s'
          ∧ s'.u ≠ s'.uold
          ∧ (s'.mem.block s'.uold).length = (n + 2 * r) * (m + 2 * r)
          ∧ (s'.mem.block s'.u).length = (n + 2 * r) * (m + 2 * r))
    ∧ ∀ num_its, ∃ out, stencil2d_omp n m u r coeff num_its = some out
        ∧ out.length = (n + 2 * r) * (m + 2 * r) := by
  have e : ((2 : Int) * r + 1) * r + r = ((2 * r + 1 : Nat) : Int) * r + r := by push_cast; ring
  refine ⟨?_, ?_, ?_⟩
  · intro buf ix iy hbuf hix hiy
    have h1 := coeff_crossInBounds coeff r hcl
    have h2 := grid_crossInBounds buf n m r ix iy hbuf hix hiy
    have e1 : ((2 : Int) * r + 1) = ((2 * r + 1 : Nat) : Int) := by push_cast; ring
    have e2 : ((ix : Int) + r) * ((m : Int) + 2 * r) + r + iy
        = ((cell_index m r ix iy : Nat) : Int) := by
      simp only [cell_index]; push_cast; ring
    have e3 : ((m : Int) + 2 * r) = ((m + 2 * r : Nat) : Int) := by push_cast; ring
    rw [e2, e3]
    rw [e1]
    exact ⟨h1, h2⟩
  · intro s t hne hsrc hdst
    refine ⟨_, by rw [e]; exact omp_it_eq n m r coeff s t hne hcl hsrc hdst,
      fun h => hne h.symm, ?_, ?_⟩
    · simp only [Mem.block_setBlock_same, length_sweep_into, hdst]
    · rw [Mem.block_setBlock_other _ _ (Ne.symm hne), hsrc]
  · intro num_its
    exact ⟨_, stencil2d_omp_eq n m u r coeff num_its hcl hlen,
      (iterate_sweep_sameHalo n m r coeff u _).1.trans hlen⟩

/-- Witness of C18: radius `1` on a `1 x 2` interior. -/
theorem C18_index_safety_witness :
    (([1, 2, 3, 4, 5, 6, 7, 8, 9] : List REAL).length = (2 * 1 + 1) * (2 * 1 + 1)
      ∧ ([1, 2, 3, 4, 5, 6, 7, 8, 9, 10, 11, 12] : List REAL).length
          = (1 + 2 * 1) * (2 + 2 * 1))
    ∧ ∀ num_its, ∃ out, stencil2d_omp 1 2 [1, 2, 3, 4, 5, 6, 7, 8, 9, 10, 11, 12] 1
          [1, 2, 3, 4, 5, 6, 7, 8, 9] num_its = some out
        ∧ out.length = (1 + 2 * 1) * (2 + 2 * 1) :=
  ⟨⟨rfl, rfl⟩, (C18_index_safety 1 2 1 [1, 2, 3, 4, 5, 6, 7, 8, 9]
    [1, 2, 3, 4, 5, 6, 7, 8, 9, 10, 11, 12] rfl rfl).2.2⟩

/-- C19. For every `num_its >= 1` the driver succeeds and leaves in the caller's buffer
the whole-grid sweep function applied `k` times to the grid at entry, where `k` is the
largest odd number `<= num_its` (`num_its` itself when odd, `num_its - 1` when even).  The
sweep function is what one iteration of the driver computes, and after `t` iterations
of the `it` loop the destination pointer `u` names the caller's block exactly when `t`
is even, so sweeps with even index write the caller's block and sweeps with odd index
the allocated one. -/
theorem C19_caller_buffer (n m r : Nat) (u coeff : List REAL) (num_its : Nat)
    (hpos : 1 ≤ num_its)
    (hcl : coeff.length = (2 * r + 1) * (2 * r + 1))
    (hlen : u.length = (n + 2 * r) * (m + 2 * r)) :
    (∃ k, k = (if num_its % 2 = 1 then num_its else num_its - 1)
      ∧ k % 2 = 1 ∧ k ≤ num_its ∧ num_its ≤ k + 1
      ∧ stencil2d_omp n m u r coeff num_its = some ((sweep n m r coeff)^[k] u))
    ∧ (∀ X : List REAL, X.length = (n + 2 * r) * (m + 2 * r) →
        stencil2d_omp n m X r coeff 1 = some (sweep n m r coeff X))
    ∧ ∀ t, ((List.range t).foldlM
          (omp_it n m coeff ((2 * r + 1) * r + r) (2 * r + 1 : Nat) (m + 2 * r : Nat) r
            (4 * r + 1))
          { mem := { caller := u, scratch := u }, u := Block.caller,
            uold := Block.scratch }).map (fun s => s.u)
        = some (if t % 2 = 0 then Block.caller else Block.scratch) := by
  have e : ((2 : Int) * r + 1) * r + r = ((2 * r + 1 : Nat) : Int) * r + r := by push_cast; ring
  refine ⟨⟨_, rfl, ?_, ?_, ?_, stencil2d_omp_eq n m u r coeff num_its hcl hlen⟩,
    fun X hX => stencil2d_omp_one n m X r coeff hcl hX, ?_⟩
  · split_ifs <;> omega
  · split_ifs <;> omega
  · split_ifs <;> omega
  · intro t
    have h := it_loop_eq n m r coeff u hcl hlen t
    have h0 : it_state n m r coeff u 0
        = { mem := { caller := u, scratch := u }, u := Block.caller, uold := Block.scratch } :=
      rfl
    rw [h0] at h
    rw [e, h]
    rfl

/-- Witness of C19: four iterations on a single interior cell. -/
theorem C19_caller_buffer_witness :
    (1 ≤ 4
      ∧ ([0, 0, 0, 0, 10, 0, 0, 0, 0] : List REAL).length = (2 * 1 + 1) * (2 * 1 + 1)
      ∧ ([0, 0, 0, 0, 1, 0, 0, 0, 0] : List REAL).length = (1 + 2 * 1) * (1 + 2 * 1))
    ∧ ∃ k, k = (if 4 % 2 = 1 then 4 else 4 - 1)
      ∧ k % 2 = 1 ∧ k ≤ 4 ∧ 4 ≤ k + 1
      ∧ stencil2d_omp 1 1 [0, 0, 0, 0, 1, 0, 0, 0, 0] 1 [0, 0, 0, 0, 10, 0, 0, 0, 0] 4
        = some ((sweep 1 1 1 [0, 0, 0, 0, 10, 0, 0, 0, 0])^[k] [0, 0, 0, 0, 1, 0, 0, 0, 0]) :=
  ⟨⟨by decide, rfl, rfl⟩, (C19_caller_buffer 1 1 1 [0, 0, 0, 0, 1, 0, 0, 0, 0]
    [0, 0, 0, 0, 10, 0, 0, 0, 0] 4 (by decide) rfl rfl).1⟩

theorem ring_step_log_fst (μ : Mem) (uold : Block) (coeff : List REAL) (c p K M : Int)
    (s : REAL × List REAL) (ir : Nat) :
    (ring_step_log μ uold coeff c p K M s ir).map Prod.fst
      = ring_step μ uold coeff c p K M s.1 ir := by
  simp only [ring_step_log, ring_step]
  cases readCell coeff (c + ir) <;> cases μ.load uold (p + ir) <;>
    cases readCell coeff (c + -ir) <;> cases μ.load uold (p + -ir) <;>
    cases readCell coeff (c + -ir * K) <;> cases μ.load uold (p + -ir * M) <;>
    cases readCell coeff (c + ir * K) <;> cases μ.load uold (p + ir * M) <;> rfl

theorem foldlM_ring_step_log_fst (μ : Mem) (uold : Block) (coeff : List REAL) (c p K M : Int)
    (l : List Nat) :
    ∀ s : REAL × List REAL,
      (l.foldlM (ring_step_log μ uold coeff c p K M) s).map Prod.fst
        = l.foldlM (ring_step μ uold coeff c p K M) s.1 := by
  induction l with
  | nil => intro s; rfl
  | cons x l ih =>
    intro s
    have h := ring_step_log_fst μ uold coeff c p K M s x
    rw [List.foldlM_cons, List.foldlM_cons]
    cases hs : ring_step_log μ uold coeff c p K M s x with
    | none =>
      rw [hs] at h
      rw [← h]
      rfl
    | some s' =>
      rw [hs] at h
      rw [← h]
      exact ih s'

/-- The logged accumulation computes what `accumulate` computes. -/
theorem accumulate_log_fst (μ : Mem) (uold : Block) (coeff : List REAL) (c p K M : Int)
    (r : Nat) :
    (accumulate_log μ uold coeff c p K M r).map Prod.fst = accumulate μ uold coeff c p K M r := by
  simp only [accumulate_log, accumulate]
  cases μ.load uold p <;> cases readCell coeff c <;> try rfl
  exact foldlM_ring_step_log_fst μ uold coeff c p K M _ _

theorem ring_step_log_eq (μ : Mem) (uold : Block) (coeff : List REAL) (c p K M : Int)
    (s : REAL × List REAL) (d : Nat)
    (hc1 : InBounds coeff (c + d)) (hc2 : InBounds coeff (c - d))
    (hc3 : InBounds coeff (c + d * K)) (hc4 : InBounds coeff (c - d * K))
    (hp1 : InBounds (μ.block uold) (p + d)) (hp2 : InBounds (μ.block uold) (p - d))
    (hp3 : InBounds (μ.block uold) (p + d * M)) (hp4 : InBounds (μ.block uold) (p - d * M)) :
    ring_step_log μ uold coeff c p K M s d
      = some (s.1 + cell coeff (c + d) * cell (μ.block uold) (p + d)
            + cell coeff (c - d) * cell (μ.block uold) (p - d)
            + cell coeff (c - d * K) * cell (μ.block uold) (p - d * M)
            + cell coeff (c + d * K) * cell (μ.block uold) (p + d * M),
          s.2 ++ ring_products coeff (μ.block uold) c p K M d) := by
  have e2 : c + -(d : Int) = c - d := by ring
  have e3 : c + -(d : Int) * K = c - d * K := by ring
  have e2p : p + -(d : Int) = p - d := by ring
  have e3p : p + -(d : Int) * M = p - d * M := by ring
  simp only [ring_step_log, Mem.load, e2, e3, e2p, e3p, readCell_of_inBounds hc1,
    readCell_of_inBounds hc2, readCell_of_inBounds hc3, readCell_of_inBounds hc4,
    readCell_of_inBounds hp1, readCell_of_inBounds hp2, readCell_of_inBounds hp3,
    readCell_of_inBounds hp4, ring_products]
  rfl

theorem ring_loop_log_eq (μ : Mem) (uold : Block) (coeff : List REAL) (c p K M : Int) (r : Nat)
    (hc : CrossInBounds coeff c K r) (hp : CrossInBounds (μ.block uold) p M r)
    (s : REAL × List REAL) :
    ∃ v, (List.range' 1 r).foldlM (ring_step_log μ uold coeff c p K M) s
      = some (v, (List.range' 1 r).foldl
          (fun acc d => acc ++ ring_products coeff (μ.block uold) c p K M d) s.2) := by
  induction r with
  | zero => exact ⟨s.1, rfl⟩
  | succ k ih =>
    have hc' : CrossInBounds coeff c K k :=
      ⟨hc.1, fun d h1 h2 => hc.2 d h1 (Nat.le_succ_of_le h2)⟩
    have hp' : CrossInBounds (μ.block uold) p M k :=
      ⟨hp.1, fun d h1 h2 => hp.2 d h1 (Nat.le_succ_of_le h2)⟩
    obtain ⟨a1, a2, a3, a4⟩ := hc.2 (k + 1) (by omega) (le_refl _)
    obtain ⟨b1, b2, b3, b4⟩ := hp.2 (k + 1) (by omega) (le_refl _)
    obtain ⟨v, hv⟩ := ih hc' hp'
    have e : 1 + 1 * k = k + 1 := by omega
    rw [List.range'_concat, List.foldlM_append, hv, List.foldl_append, e]
    simp only [List.foldlM_cons, List.foldlM_nil, bind_pure, Option.bind_eq_bind,
      Option.some_bind, List.foldl_cons, List.foldl_nil]
    rw [ring_step_log_eq μ uold coeff c p K M _ (k + 1) a1 a2 a3 a4 b1 b2 b3 b4]
    exact ⟨_, rfl⟩

/-- C20 (counterexample). Radius `1`, kernel `[1..9]` with centre index `4`, a source block
of nine ones read around index `4`: the products are then the kernel entries.  The code
adds centre `5`, east `6`, west `4`, north `2`, south `8`, in that order; the order of the
specification (south before north) would be `5, 6, 4, 8, 2`. -/
theorem C20_summation_order_counterexample :
    accumulate_log { caller := [0, 0, 0, 0, 0, 0, 0, 0, 0],
                     scratch := [1, 1, 1, 1, 1, 1, 1, 1, 1] }
        Block.scratch [1, 2, 3, 4, 5, 6, 7, 8, 9] 4 4 3 3 1
      = some (25, [5, 6, 4, 2, 8])
    ∧ products_spec [1, 2, 3, 4, 5, 6, 7, 8, 9] [1, 1, 1, 1, 1, 1, 1, 1, 1] 4 4 3 3 1
      = [5, 6, 4, 8, 2] := by
  refine ⟨?_, ?_⟩
  · simp [accumulate_log, ring_step_log, Mem.load, Mem.block, readCell, List.range']
    norm_num
  · simp [products_spec, ring_products_spec, cell, readCell, List.range']

/-- C20 (amended). For every radius `r` and every interior cell `(ix, iy)` of a source
block of `(n+2r)*(m+2r)` cells, with a kernel of `(2r+1)^2` cells, the logged accumulation
succeeds, its running sum is the result of `accumulate`, and the sequence of products
added is: the centre term first, then for `d = 1, 2, ..., r` in ascending order the four
terms of ring `d` in the order east `c[+d]*p[+d]`, west `c[-d]*p[-d]`, north
`c[-d*K]*p[-d*M]`, south `c[+d*K]*p[+d*M]`. -/
theorem C20_summation_order (n m r ix iy : Nat) (μ : Mem) (uold : Block) (coeff : List REAL)
    (hcl : coeff.length = (2 * r + 1) * (2 * r + 1))
    (hsrc : (μ.block uold).length = (n + 2 * r) * (m + 2 * r))
    (hix : ix < n) (hiy : iy < m) :
    (accumulate_log μ uold coeff ((2 * r + 1) * r + r) ((ix + r) * (m + 2 * r) + r + iy)
        (2 * r + 1) (m + 2 * r) r).map Prod.fst
      = accumulate μ uold coeff ((2 * r + 1) * r + r) ((ix + r) * (m + 2 * r) + r + iy)
        (2 * r + 1) (m + 2 * r) r
    ∧ ∃ v, accumulate_log μ uold coeff ((2 * r + 1) * r + r)
          ((ix + r) * (m + 2 * r) + r + iy) (2 * r + 1) (m + 2 * r) r
        = some (v, products coeff (μ.block uold) ((2 * r + 1) * r + r)
            ((ix + r) * (m + 2 * r) + r + iy) (2 * r + 1) (m + 2 * r) r) := by
  refine ⟨accumulate_log_fst μ uold coeff _ _ _ _ r, ?_⟩
  have e1 : ((2 : Int) * r + 1) = ((2 * r + 1 : Nat) : Int) := by push_cast; ring
  have e2 : ((ix : Int) + r) * ((m : Int) + 2 * r) + r + iy
      = ((cell_index m r ix iy : Nat) : Int) := by
    simp only [cell_index]; push_cast; ring
  have e3 : ((m : Int) + 2 * r) = ((m + 2 * r : Nat) : Int) := by push_cast; ring
  rw [e2, e3, e1]
  have hc := coeff_crossInBounds coeff r hcl
  have hp := grid_crossInBounds (μ.block uold) n m r ix iy hsrc hix hiy
  simp only [accumulate_log, Mem.load, readCell_of_inBounds hc.1, readCell_of_inBounds hp.1,
    Option.some_bind, bind, Option.bind]
  obtain ⟨v, hv⟩ := ring_loop_log_eq μ uold coeff _ _ _ _ r hc hp
    (cell (μ.block uold) ((cell_index m r ix iy : Nat) : Int)
        * cell coeff (((2 * r + 1 : Nat) : Int) * r + r),
      [cell (μ.block uold) ((cell_index m r ix iy : Nat) : Int)
        * cell coeff (((2 * r + 1 : Nat) : Int) * r + r)])
  refine ⟨v, ?_⟩
  rw [hv, products, mul_comm (cell coeff _) (cell (μ.block uold) _)]

/-- Witness of C20 (amended): radius `1`, a single interior cell. -/
theorem C20_summation_order_witness :
    (([1, 2, 3, 4, 5, 6, 7, 8, 9] : List REAL).length = (2 * 1 + 1) * (2 * 1 + 1)
      ∧ ([1, 1, 1, 1, 1, 1, 1, 1, 1] : List REAL).length = (1 + 2 * 1) * (1 + 2 * 1)
      ∧ 0 < 1)
    ∧ ∃ v, accumulate_log { caller := [0, 0, 0, 0, 0, 0, 0, 0, 0],
                            scratch := [1, 1, 1, 1, 1, 1, 1, 1, 1] }
          Block.scratch [1, 2, 3, 4, 5, 6, 7, 8, 9] ((2 * (1 : Nat) + 1) * (1 : Nat) + (1 : Nat))
          (((0 : Nat) + (1 : Nat)) * ((1 : Nat) + 2 * (1 : Nat)) + (1 : Nat) + (0 : Nat))
          (2 * (1 : Nat) + 1) ((1 : Nat) + 2 * (1 : Nat)) 1
        = some (v, products [1, 2, 3, 4, 5, 6, 7, 8, 9] [1, 1, 1, 1, 1, 1, 1, 1, 1]
            ((2 * (1 : Nat) + 1) * (1 : Nat) + (1 : Nat))
            (((0 : Nat) + (1 : Nat)) * ((1 : Nat) + 2 * (1 : Nat)) + (1 : Nat) + (0 : Nat))
            (2 * (1 : Nat) + 1) ((1 : Nat) + 2 * (1 : Nat)) 1) :=
  ⟨⟨rfl, rfl, by decide⟩, (C20_summation_order 1 1 1 0 0
    { caller := [0, 0, 0, 0, 0, 0, 0, 0, 0], scratch := [1, 1, 1, 1, 1, 1, 1, 1, 1] }
    Block.scratch [1, 2, 3, 4, 5, 6, 7, 8, 9] rfl rfl (by decide) (by decide)).2⟩

end Stencil2d
